import Mathlib

/-!
Verification development for the grid pathfinding search core of the
algorithm-visualizer repository.  The JavaScript sources embedded here are
the weighted A*-family search of `docs.codexhub.ai/examples/improved-astar.js`
(functions `astar`, `validateInputs`, `initializeStartNode`, `findClosestNode`,
`updateNeighbors`, `getNeighbors`, `updateSingleNeighbor`, `manhattanDistance`,
`calculateNodeDistance`, `updateNodeWithNewPath`), the frontier selector
`AStar.findNodeWithLowestDistance` of `modern-astar.js`, the adjacency
resolver with diagonal mode and the path reconstruction walk of the
pathfinding utilities module, and the heading-aware step cost function
`getDistance` whose implementation file is not part of the staged sources
(modelled from the spec, pinned by the repository's own unit tests).

Cells are integer coordinate pairs (row, col), mirroring the string ids
"r-c" of the JavaScript code.  JavaScript's `Infinity`-valued distances are
modelled by `ℕ∞` (`WithTop ℕ`): `⊤ + x = ⊤`, finite values compare below
`⊤`, and `⊤ < ⊤` is false, exactly like IEEE `Infinity` in the comparisons
the code performs.  A `null` JavaScript field is an `Option.none`.
-/

namespace AV

/-- A cell identifier: (row, col), the parsed form of the id string "r-c". -/
abbrev Cell := ℤ × ℤ

/-- The status strings a cell can carry in the visualizer. -/
inductive Status
  | unvisited
  | wall
  | start
  | target
  | visited
  | shortestPath
deriving DecidableEq

/-- The four headings of the heading-aware cost model ("up", "down",
"left", "right" in the JavaScript code). -/
inductive Direction
  | up
  | down
  | left
  | right
deriving DecidableEq

/-- A movement instruction of a path segment: "f" (forward), "l" (rotate
left), "r" (rotate right).  The instruction set has no single reverse
instruction. -/
inductive Move
  | f
  | l
  | r
deriving DecidableEq

/-- The heading opposite to a given heading (a 180-degree reversal). -/
def Direction.opposite : Direction → Direction
  | .up => .down
  | .down => .up
  | .left => .right
  | .right => .left

/-- The cell one step from `c` in heading `d`.  Row decreases going up and
column decreases going left, as in the JavaScript coordinate convention. -/
def cellInDir (c : Cell) : Direction → Cell
  | .up => (c.1 - 1, c.2)
  | .down => (c.1 + 1, c.2)
  | .left => (c.1, c.2 - 1)
  | .right => (c.1, c.2 + 1)

/-- Modelled from the spec: the heading-aware step cost function
`getDistance` of `public/browser/getDistance` is required by the test file
`__tests__/astar.test.js` but its implementation file is not among the
staged sources.  Following the spec's heading-cost table (continuing
straight costs 1 with path `[f]`; a single 90-degree turn costs 2 with one
rotation then forward; a reversal costs 3 with two same-signed rotations
then forward) and the concrete rotation signs asserted by the unit tests,
the function takes the current cell, the neighbor cell and the current
heading and returns `(cost, turn path, new heading)`.  The JavaScript
function branches on the coordinate comparison first (up, down, left,
right) and then on the current heading, as mirrored here; the final
catch-all (same cell) returns cost 1, `[f]` and the unchanged heading. -/
def getDistance (c₁ c₂ : Cell) (dir : Direction) : ℕ × List Move × Direction :=
  if c₂.1 < c₁.1 then
    match dir with
    | .up => (1, [.f], .up)
    | .right => (2, [.l, .f], .up)
    | .left => (2, [.r, .f], .up)
    | .down => (3, [.r, .r, .f], .up)
  else if c₂.1 > c₁.1 then
    match dir with
    | .down => (1, [.f], .down)
    | .right => (2, [.r, .f], .down)
    | .left => (2, [.l, .f], .down)
    | .up => (3, [.r, .r, .f], .down)
  else if c₂.2 < c₁.2 then
    match dir with
    | .left => (1, [.f], .left)
    | .up => (2, [.l, .f], .left)
    | .down => (2, [.r, .f], .left)
    | .right => (3, [.r, .r, .f], .left)
  else if c₂.2 > c₁.2 then
    match dir with
    | .right => (1, [.f], .right)
    | .up => (2, [.r, .f], .right)
    | .down => (2, [.l, .f], .right)
    | .left => (3, [.r, .r, .f], .right)
  else
    (1, [.f], dir)

/-- The algorithmic record of one cell, following the fields of the `Node`
class: `status`, `distance` (gCost), `totalDistance` (fCost),
`heuristicDistance` (initially `null`), `weight`, `previousNode` (back
pointer, initially `null`), `path` (the turn instructions of the last
relaxation) and `direction` (the heading, initially `null`).  The extra
ghost field `hCount` counts how many times the heuristic function has been
invoked for this cell; it is incremented exactly where the JavaScript code
calls `heuristicFn` and changes nothing else. -/
structure NodeRec where
  status : Status
  distance : ℕ∞
  totalDistance : ℕ∞
  heuristicDistance : Option ℕ
  weight : ℕ
  previousNode : Option Cell
  path : List Move
  direction : Option Direction
  hCount : ℕ
deriving DecidableEq

/-- The mutable search state: the node dictionary and the `nodesToAnimate`
visitation trace (stored as cell ids, in push order). -/
structure SearchState where
  nodes : Cell → NodeRec
  animate : List Cell

/-- A grid: immutable dimensions, plus the initial status (walls among
them) and weight of every cell, as authored before the search call. -/
structure Grid where
  rows : ℕ
  cols : ℕ
  status : Cell → Status
  weight : Cell → ℕ

/-- The result of one `astar` call: "success!" (`success`), `false`
(`failed`), or a thrown TypeError (`crash`, reached when `findClosestNode`
returns `null` and the caller dereferences it).  `outOfFuel` is an
artifact of the fuel-indexed recursion and is proved unreachable for the
fuel the top-level entry point supplies. -/
inductive Outcome
  | success
  | failed
  | crash
  | outOfFuel
deriving DecidableEq

/-- Membership of a cell in the board (`boardArray[newX] &&
boardArray[newX][newY]` in the JavaScript bounds check, with every board
entry truthy): row and column are in range. -/
abbrev inBounds (rows cols : ℕ) (c : Cell) : Prop :=
  0 ≤ c.1 ∧ c.1 < (rows : ℤ) ∧ 0 ≤ c.2 ∧ c.2 < (cols : ℤ)

/-- The four cardinal direction offsets, in the order the code lists them:
up, down, left, right. -/
def dirsCardinal : List (ℤ × ℤ) := [(-1, 0), (1, 0), (0, -1), (0, 1)]

/-- `getNeighbors` of `improved-astar.js`: the in-bounds, non-wall cardinal
neighbors of a cell, in direction order. -/
def getNeighbors (nodes : Cell → NodeRec) (rows cols : ℕ) (c : Cell) : List Cell :=
  dirsCardinal.filterMap fun d =>
    let n : Cell := (c.1 + d.1, c.2 + d.2)
    if inBounds rows cols n ∧ (nodes n).status ≠ Status.wall then some n else none

/-- `manhattanDistance` of `improved-astar.js`: the Manhattan distance
between two cells (the default heuristic the search is invoked with). -/
def manhattanDistance (a b : Cell) : ℕ :=
  (a.1 - b.1).natAbs + (a.2 - b.2).natAbs

/-- `calculateNodeDistance` of `improved-astar.js` (the simplified cost
model of that file): compares coordinates to find the move direction and
always returns cost 1 with path `["f"]`; the fallback for identical cells
keeps the current heading. -/
def calculateNodeDistance (c₁ c₂ : Cell) (dir : Option Direction) :
    ℕ × List Move × Option Direction :=
  if c₂.1 < c₁.1 then (1, [Move.f], some Direction.up)
  else if c₁.1 < c₂.1 then (1, [Move.f], some Direction.down)
  else if c₂.2 < c₁.2 then (1, [Move.f], some Direction.left)
  else if c₁.2 < c₂.2 then (1, [Move.f], some Direction.right)
  else (1, [Move.f], dir)

/-- JavaScript truthiness of a possibly-`null` number, as used in the
cache check `if (!neighborNode.heuristicDistance)`: `null` and `0` are
falsy. -/
def hFalsy : Option ℕ → Bool
  | none => true
  | some n => n == 0

/-- JavaScript numeric coercion of a possibly-`null` number, as used in
relational comparisons: `null` compares as `0`. -/
def hNum : Option ℕ → ℕ
  | none => 0
  | some n => n

/-- The heuristic caching step of `updateSingleNeighbor`: when the cached
value is falsy (`null` or `0`), store the Manhattan distance heuristic and
bump the ghost computation counter; otherwise change nothing. -/
def cacheHeuristic (rec : NodeRec) (nb target : Cell) : NodeRec :=
  if hFalsy rec.heuristicDistance then
    { rec with
      heuristicDistance := some (manhattanDistance nb target),
      hCount := rec.hCount + 1 }
  else rec

/-- The candidate distance of a relaxation,
`currentNode.distance + neighborNode.weight + distance[0]`. -/
def relaxCand (nodes : Cell → NodeRec) (cur nb : Cell) : ℕ∞ :=
  (nodes cur).distance + ((nodes nb).weight : ℕ∞) +
    (((calculateNodeDistance cur nb (nodes cur).direction).1 : ℕ) : ℕ∞)

/-- The conditional write of `updateNodeWithNewPath`: if the candidate
improves on the current distance, rewrite `distance`, `totalDistance`
(distance plus the cached heuristic), `previousNode`, `path` and
`direction`; otherwise change nothing. -/
def applyRelax (rec : NodeRec) (cand : ℕ∞) (cur : Cell) (path : List Move)
    (dir : Option Direction) : NodeRec :=
  if cand < rec.distance then
    { rec with
      distance := cand,
      totalDistance := cand + (hNum rec.heuristicDistance : ℕ∞),
      previousNode := some cur,
      path := path,
      direction := dir }
  else rec

/-- `updateSingleNeighbor` of `improved-astar.js` (with
`updateNodeWithNewPath` inlined, and the default heuristic
`manhattanDistance`): computes the step cost, caches the heuristic when
the cached value is falsy, and if the candidate distance
`current.distance + neighbor.weight + stepCost` improves on the
neighbor's distance, rewrites the neighbor's `distance`, `totalDistance`,
`previousNode`, `path` and `direction`. -/
def updateSingleNeighbor (nodes : Cell → NodeRec) (cur nb target : Cell) :
    Cell → NodeRec :=
  let dist := calculateNodeDistance cur nb (nodes cur).direction
  let nbRec₂ := applyRelax (cacheHeuristic (nodes nb) nb target)
    (relaxCand nodes cur nb) cur dist.2.1 dist.2.2
  fun c => if c = nb then nbRec₂ else nodes c

/-- `updateNeighbors` of `improved-astar.js`: relax every neighbor of the
current cell in turn (the neighbor list is computed once, before the
first relaxation, as in the source). -/
def updateNeighbors (nodes : Cell → NodeRec) (rows cols : ℕ) (cur target : Cell) :
    Cell → NodeRec :=
  (getNeighbors nodes rows cols cur).foldl
    (fun ns nb => updateSingleNeighbor ns cur nb target) nodes

/-- One comparison step of the `findClosestNode` scan of
`improved-astar.js`, over `(index, cell)` pairs: skip walls; otherwise
take the candidate when there is no current best, when it has strictly
lower `totalDistance`, or when it ties on `totalDistance` with strictly
lower `heuristicDistance` (`null` comparing as 0, as in JavaScript). -/
def scanStep (nodes : Cell → NodeRec) (best : Option (ℕ × Cell)) (p : ℕ × Cell) :
    Option (ℕ × Cell) :=
  if (nodes p.2).status = Status.wall then best
  else
    match best with
    | none => some p
    | some b =>
      if (nodes p.2).totalDistance < (nodes b.2).totalDistance then some p
      else if (nodes b.2).totalDistance = (nodes p.2).totalDistance ∧
          hNum (nodes p.2).heuristicDistance < hNum (nodes b.2).heuristicDistance then
        some p
      else some b

/-- The scan phase of `findClosestNode`: fold the comparison step over the
indexed unvisited list, starting from no best. -/
def findClosestScan (nodes : Cell → NodeRec) (us : List Cell) : Option (ℕ × Cell) :=
  us.enum.foldl (scanStep nodes) none

/-- `findClosestNode` of `improved-astar.js`: scan for the closest
non-wall unvisited node, splice it out of the unvisited list (the splice
index stays 0 when every entry is a wall and no best was chosen, in which
case the returned node is `null`). -/
def findClosestNode (nodes : Cell → NodeRec) (us : List Cell) :
    Option Cell × List Cell :=
  match findClosestScan nodes us with
  | none => (none, us.eraseIdx 0)
  | some (i, c) => (some c, us.eraseIdx i)

/-- Append the current node to `nodesToAnimate` and overwrite its status
with "visited", as the main loop does right after extraction. -/
def visitCell (s : SearchState) (c : Cell) : SearchState :=
  { nodes := fun c' => if c' = c then { s.nodes c with status := Status.visited }
      else s.nodes c',
    animate := s.animate ++ [c] }

/-- The `while (unvisitedNodes.length > 0)` loop of `astar` in
`improved-astar.js`, indexed by fuel (each iteration splices one element
out of the unvisited list, so fuel `us.length` is enough; `outOfFuel` is
never reached from the entry point).  Returns the outcome, the final
state, and the chronological list of intermediate states (the state at
entry of every iteration, plus the state right after each visit and the
final state).  Dereferencing the `null` returned by `findClosestNode`
when only walls remain is the `crash` outcome. -/
def astarLoop (rows cols : ℕ) (target : Cell) :
    ℕ → List Cell → SearchState → Outcome × SearchState × List SearchState
  | _, [], s => (Outcome.failed, s, [s])
  | 0, _ :: _, s => (Outcome.outOfFuel, s, [s])
  | fuel + 1, u :: rest, s =>
    match findClosestNode s.nodes (u :: rest) with
    | (none, _) => (Outcome.crash, s, [s])
    | (some c, us') =>
      if (s.nodes c).status = Status.wall then
        let r := astarLoop rows cols target fuel us' s
        (r.1, r.2.1, s :: r.2.2)
      else if (s.nodes c).distance = ⊤ then (Outcome.failed, s, [s])
      else
        let s₁ := visitCell s c
        if c = target then (Outcome.success, s₁, [s, s₁])
        else
          let s₂ : SearchState :=
            { s₁ with nodes := updateNeighbors s₁.nodes rows cols c target }
          let r := astarLoop rows cols target fuel us' s₂
          (r.1, r.2.1, s :: s₁ :: r.2.2)

/-- `initializeStartNode` of `improved-astar.js`: distance and total
distance 0, default heading "up". -/
def initStartNode (s : SearchState) (start : Cell) : SearchState :=
  { s with
    nodes := fun c => if c = start then
        { s.nodes start with
          distance := 0,
          totalDistance := 0,
          direction := some Direction.up }
      else s.nodes c }

/-- The fresh node dictionary and empty animation list built from a grid
at initialization, with the `Node` class defaults (`distance` and
`totalDistance` `Infinity`, everything else empty/null/zero). -/
def initState (g : Grid) : SearchState :=
  { nodes := fun c =>
      { status := g.status c, distance := ⊤, totalDistance := ⊤,
        heuristicDistance := none, weight := g.weight c, previousNode := none,
        path := [], direction := none, hCount := 0 },
    animate := [] }

/-- `Object.keys(nodes)`: the cell ids in insertion order, row-major. -/
def keysList (rows cols : ℕ) : List Cell :=
  (List.range rows).flatMap fun r =>
    (List.range cols).map fun q => Prod.mk (Int.ofNat r) (Int.ofNat q)

/-- `astar` of `improved-astar.js`: `validateInputs` (missing arguments,
ids absent from the node dictionary, or start equal to target fail the
call before anything is touched), then `initializeStartNode`, then the
main loop over `Object.keys(nodes)`. -/
def astarRun (g : Grid) (start? target? : Option Cell) :
    Outcome × SearchState × List SearchState :=
  match start?, target? with
  | some start, some target =>
    if inBounds g.rows g.cols start ∧ inBounds g.rows g.cols target then
      if start = target then (Outcome.failed, initState g, [initState g])
      else
        astarLoop g.rows g.cols target (keysList g.rows g.cols).length
          (keysList g.rows g.cols) (initStartNode (initState g) start)
    else (Outcome.failed, initState g, [initState g])
  | _, _ => (Outcome.failed, initState g, [initState g])

/-- The weighted search on a grid with both ids present (the common call
shape). -/
def runAstar (g : Grid) (start target : Cell) :
    Outcome × SearchState × List SearchState :=
  astarRun g (some start) (some target)

/-- The `validateInputs` failure condition of `improved-astar.js`, as the
spec's InvalidInput taxonomy states it: a null/missing id, an id absent
from the grid, or start equal to target. -/
def invalidInput (g : Grid) : Option Cell → Option Cell → Prop
  | none, _ => True
  | some _, none => True
  | some s, some t => ¬ inBounds g.rows g.cols s ∨ ¬ inBounds g.rows g.cols t ∨ s = t

/-- A cardinal adjacency step: `b` is one cardinal offset from `a`. -/
def adjStep (a b : Cell) : Prop := (b.1 - a.1, b.2 - a.2) ∈ dirsCardinal

/-- A traversable edge of grid `g`: a cardinal step into an in-bounds cell
that is not a wall in the authored grid. -/
def openEdge (g : Grid) (a b : Cell) : Prop :=
  adjStep a b ∧ inBounds g.rows g.cols b ∧ g.status b ≠ Status.wall

/-- Reachability in the authored grid: the reflexive-transitive closure of
traversable edges from the start cell. -/
def Reach (g : Grid) (start c : Cell) : Prop :=
  Relation.ReflTransGen (openEdge g) start c

/-- The eight direction offsets of diagonal mode, in the order the
pathfinding utilities list them: the four cardinals, then up-left,
up-right, down-left, down-right. -/
def dirsWithDiag : List (ℤ × ℤ) :=
  [(-1, 0), (1, 0), (0, -1), (0, 1), (-1, -1), (-1, 1), (1, -1), (1, 1)]

/-- The per-direction candidate check of the diagonal-mode `getNeighbors`
of the pathfinding utilities module: skip out-of-bounds candidates; for a
diagonal offset (`Math.abs(dx) === 1 && Math.abs(dy) === 1`) require at
least one of the two orthogonally adjacent cells (`(x, newY)` and
`(newX, y)`) to be open, then require the candidate itself not to be a
wall; for a cardinal offset only the candidate's own wall status is
checked. -/
def diagCand (nodes : Cell → NodeRec) (rows cols : ℕ) (c : Cell)
    (d : ℤ × ℤ) : Option Cell :=
  let n : Cell := (c.1 + d.1, c.2 + d.2)
  if inBounds rows cols n then
    if d.1.natAbs = 1 ∧ d.2.natAbs = 1 then
      if (nodes (c.1, n.2)).status ≠ Status.wall ∨
          (nodes (n.1, c.2)).status ≠ Status.wall then
        if (nodes n).status ≠ Status.wall then some n else none
      else none
    else
      if (nodes n).status ≠ Status.wall then some n else none
  else none

/-- `getNeighbors` of the pathfinding utilities module with
`allowDiagonal = true`: the candidates of the eight directions, in
order. -/
def getNeighborsDiag (nodes : Cell → NodeRec) (rows cols : ℕ) (c : Cell) :
    List Cell :=
  dirsWithDiag.filterMap (diagCand nodes rows cols c)

/-- The `while (currentNodeId !== null)` walk of `getShortestPath` in the
pathfinding utilities (and `modern-astar.js`): follow `previousNode` links
from the target, prepending each visited id.  The walk is fuel-indexed;
`none` models a walk that has not terminated within the given fuel (the
JavaScript loop has no cycle detection and simply never terminates on a
cyclic chain). -/
def getShortestPathAux (prev : Cell → Option Cell) :
    ℕ → Option Cell → List Cell → Option (List Cell)
  | _, none, acc => some acc
  | 0, some _, _ => none
  | fuel + 1, some c, acc => getShortestPathAux prev fuel (prev c) (c :: acc)

/-- `getShortestPath(nodes, targetId)`: walk the back-pointer chain from
the target with the given fuel. -/
def getShortestPath (prev : Cell → Option Cell) (target : Cell) (fuel : ℕ) :
    Option (List Cell) :=
  getShortestPathAux prev fuel (some target) []

/-- The association-list lookup standing for `unvisitedMap.get`: the map's
entries in insertion order, keys unique in use.  A missing key yields `⊤`
(never consulted by the theorems, which keep the scanned key in the
map). -/
def lookupD (m : List (Cell × ℕ∞)) (k : Cell) : ℕ∞ :=
  match m.find? (fun p => decide (p.1 = k)) with
  | some p => p.2
  | none => ⊤

/-- `AStar.findNodeWithLowestDistance` of `modern-astar.js` (the ES6
class): reduce over the map entries, replacing the running lowest key only
on a strictly smaller `totalDistance` value, seeded with the first key.
No heuristic tie-break is consulted. -/
def findNodeWithLowestDistance (m : List (Cell × ℕ∞)) : Option Cell :=
  match m with
  | [] => none
  | p₀ :: _ =>
    some (m.foldl (fun lowest p => if p.2 < lookupD m lowest then p.1 else lowest) p₀.1)

/-- The lexicographic selection order of the frontier scan: lower
`totalDistance` first, ties compared by the numeric value of the cached
heuristic (`null` as 0). -/
def lexLe (nodes : Cell → NodeRec) (c x : Cell) : Prop :=
  (nodes c).totalDistance ≤ (nodes x).totalDistance ∧
  ((nodes c).totalDistance = (nodes x).totalDistance →
    hNum (nodes c).heuristicDistance ≤ hNum (nodes x).heuristicDistance)

/-- The run invariant of the weighted search, holding at every
intermediate state of a call on grid `g` from `start` to `target`:
(1) the wall set never changes; (2) a finite distance implies
reachability from start; (3) a set back pointer implies reachability;
(4) a cached heuristic equals the Manhattan distance to the target;
(5) a non-start cell with finite distance has its heuristic cached;
(6) the total distance is distance plus the cached heuristic, except at
the start cell which keeps its initialized pair (0, 0); (7) a wall other
than the start keeps distance `Infinity`; (8) no wall is in the trace;
(9) every traced cell is marked visited; (10) a non-empty trace starts at
the start cell; (11) while the trace is empty the node dictionary is
still exactly the initialized one; (12) the heuristic of a non-target
cell has been computed at most once; (13) an uncached heuristic has never
been computed. -/
structure Inv (g : Grid) (start target : Cell) (s : SearchState) : Prop where
  wall_iff : ∀ c, (s.nodes c).status = Status.wall ↔ g.status c = Status.wall
  reach_of_finite : ∀ c, (s.nodes c).distance ≠ ⊤ → Reach g start c
  reach_of_prev : ∀ c, (s.nodes c).previousNode ≠ none → Reach g start c
  heur_eq : ∀ c k, (s.nodes c).heuristicDistance = some k →
    k = manhattanDistance c target
  heur_some : ∀ c, c ≠ start → (s.nodes c).distance ≠ ⊤ →
    (s.nodes c).heuristicDistance ≠ none
  total_eq : ∀ c, c ≠ start → (s.nodes c).totalDistance =
    (s.nodes c).distance + (hNum (s.nodes c).heuristicDistance : ℕ∞)
  start_zero : (s.nodes start).distance = 0 ∧ (s.nodes start).totalDistance = 0
  wall_dist : ∀ c, (s.nodes c).status = Status.wall → c ≠ start →
    (s.nodes c).distance = ⊤
  wall_not_anim : ∀ c, (s.nodes c).status = Status.wall → c ∉ s.animate
  anim_visited : ∀ c, c ∈ s.animate → (s.nodes c).status = Status.visited
  anim_head : s.animate ≠ [] → s.animate.head? = some start
  fresh : s.animate = [] → ∀ c, s.nodes c = (initStartNode (initState g) start).nodes c
  hcount_le : ∀ c, c ≠ target → (s.nodes c).hCount ≤ 1
  hcount_zero : ∀ c, (s.nodes c).heuristicDistance = none → (s.nodes c).hCount = 0

/-- Pointwise monotonicity between two states: every cell's distance and
total distance in the later state are at most those of the earlier
state. -/
def stepLE (a b : SearchState) : Prop :=
  ∀ c, (b.nodes c).distance ≤ (a.nodes c).distance ∧
    (b.nodes c).totalDistance ≤ (a.nodes c).totalDistance

/-- Everything the loop induction maintains about one call of the main
loop `astarLoop g.rows g.cols target fuel us s` with result `r`. -/
structure LoopFacts (g : Grid) (start target : Cell) (fuel : ℕ) (us : List Cell)
    (s : SearchState) (r : Outcome × SearchState × List SearchState) : Prop where
  invHist : ∀ st ∈ r.2.2, Inv g start target st
  monoHist : List.Chain' stepLE r.2.2
  headHist : r.2.2.head? = some s
  invFinal : Inv g start target r.2.1
  leFinal : stepLE s r.2.1
  successAnim : r.1 = Outcome.success →
    r.2.1.animate ≠ [] ∧ r.2.1.animate.getLast? = some target
  noFuelOut : us.length ≤ fuel → r.1 ≠ Outcome.outOfFuel
  unreachFailed : us.length ≤ fuel → target ∈ us →
    g.status target ≠ Status.wall → ¬ Reach g start target → r.1 = Outcome.failed

/-- Example grid: an open 2 by 2 board, no walls, no weights. -/
def gridOpen2 : Grid := ⟨2, 2, fun _ => Status.unvisited, fun _ => 0⟩

/-- Example grid: a 1 by 2 board whose first cell (used as start) is a
wall. -/
def gridWallStart : Grid :=
  ⟨1, 2, fun c => if c = ((0 : ℤ), (0 : ℤ)) then Status.wall else Status.unvisited,
    fun _ => 0⟩

/-- Example grid: a 1 by 2 board whose second cell (used as target) is a
wall. -/
def gridWallTarget : Grid :=
  ⟨1, 2, fun c => if c = ((0 : ℤ), (1 : ℤ)) then Status.wall else Status.unvisited,
    fun _ => 0⟩

/-- Example grid: a 1 by 3 board with a wall in the middle, separating
the ends. -/
def gridBlocked : Grid :=
  ⟨1, 3, fun c => if c = ((0 : ℤ), (1 : ℤ)) then Status.wall else Status.unvisited,
    fun _ => 0⟩

/-- Example grid: a 2 by 3 board with weight 10 on cell (1,1). -/
def gridWeighted : Grid :=
  ⟨2, 3, fun _ => Status.unvisited,
    fun c => if c = ((1 : ℤ), (1 : ℤ)) then 10 else 0⟩

/-- Example node dictionary with two cells tied on `totalDistance` 5 whose
cached heuristics are 5 (cell (0,0)) and 1 (cell (0,1)). -/
def nodesC6 : Cell → NodeRec := fun c =>
  if c = ((0 : ℤ), (1 : ℤ)) then
    { status := Status.unvisited, distance := 4, totalDistance := 5,
      heuristicDistance := some 1, weight := 0, previousNode := none,
      path := [], direction := none, hCount := 1 }
  else
    { status := Status.unvisited, distance := 0, totalDistance := 5,
      heuristicDistance := some 5, weight := 0, previousNode := none,
      path := [], direction := none, hCount := 1 }

/-- The unvisited map matching `nodesC6`: both cells at `totalDistance`
5, in insertion order (0,0) then (0,1). -/
def mapC6 : List (Cell × ℕ∞) := [(((0 : ℤ), (0 : ℤ)), 5), (((0 : ℤ), (1 : ℤ)), 5)]

/-- Example back-pointer table with every link `null`. -/
def prevNoneEx : Cell → Option Cell := fun _ => none

/-- Example back-pointer table with a two-cell cycle between (0,0) and
(0,1). -/
def prevCycEx : Cell → Option Cell := fun c =>
  if c = ((0 : ℤ), (0 : ℤ)) then some (0, 1)
  else if c = ((0 : ℤ), (1 : ℤ)) then some (0, 0)
  else none

/-- The node dictionary of `gridOpen2` right after start-node
initialization at (0,0) (used to witness a firing relaxation). -/
def nodesEx : Cell → NodeRec := (initStartNode (initState gridOpen2) (0, 0)).nodes

end AV

namespace AV

/-- Manhattan distance is zero exactly between a cell and itself. -/
theorem manhattanDistance_eq_zero {a b : Cell} :
    manhattanDistance a b = 0 ↔ a = b := by
  unfold manhattanDistance
  constructor
  · intro h
    have h1 : (a.1 - b.1).natAbs = 0 := by omega
    have h2 : (a.2 - b.2).natAbs = 0 := by omega
    have e1 : a.1 = b.1 := by omega
    have e2 : a.2 = b.2 := by omega
    exact Prod.ext e1 e2
  · rintro rfl
    simp

/-- `stepLE` is reflexive. -/
theorem stepLE_refl (s : SearchState) : stepLE s s := fun _ => ⟨le_refl _, le_refl _⟩

/-- `stepLE` is transitive. -/
theorem stepLE_trans {a b c : SearchState} (h₁ : stepLE a b) (h₂ : stepLE b c) :
    stepLE a c := fun x =>
  ⟨le_trans (h₂ x).1 (h₁ x).1, le_trans (h₂ x).2 (h₁ x).2⟩

/-- `lexLe` is reflexive. -/
theorem lexLe_refl (nodes : Cell → NodeRec) (c : Cell) : lexLe nodes c c :=
  ⟨le_refl _, fun _ => le_refl _⟩

/-- `lexLe` is transitive. -/
theorem lexLe_trans {nodes : Cell → NodeRec} {a b c : Cell}
    (h₁ : lexLe nodes a b) (h₂ : lexLe nodes b c) : lexLe nodes a c := by
  refine ⟨le_trans h₁.1 h₂.1, fun h => ?_⟩
  have hab : (nodes a).totalDistance = (nodes b).totalDistance :=
    le_antisymm h₁.1 (h ▸ h₂.1)
  have hbc : (nodes b).totalDistance = (nodes c).totalDistance := by
    rw [← hab]; exact h
  exact le_trans (h₁.2 hab) (h₂.2 hbc)

/-- Membership in the row-major key list is exactly board membership. -/
theorem mem_keysList {rows cols : ℕ} {c : Cell} :
    c ∈ keysList rows cols ↔ inBounds rows cols c := by
  unfold keysList
  rw [List.mem_flatMap]
  constructor
  · rintro ⟨r, hr, hmem⟩
    rw [List.mem_map] at hmem
    obtain ⟨q, hq, rfl⟩ := hmem
    rw [List.mem_range] at hr hq
    refine ⟨?_, ?_, ?_, ?_⟩ <;> simp [Int.ofNat_eq_coe] <;> omega
  · rintro ⟨h₁, h₂, h₃, h₄⟩
    refine ⟨c.1.toNat, ?_, ?_⟩
    · rw [List.mem_range]; omega
    · rw [List.mem_map]
      refine ⟨c.2.toNat, by rw [List.mem_range]; omega, ?_⟩
      obtain ⟨x, y⟩ := c
      simp only [Prod.mk.injEq]
      constructor <;> simp [Int.ofNat_eq_coe] <;> omega

/-- Every member of `getNeighbors` is an in-bounds, non-wall cell one
cardinal step away. -/
theorem getNeighbors_mem {nodes : Cell → NodeRec} {rows cols : ℕ} {c nb : Cell}
    (h : nb ∈ getNeighbors nodes rows cols c) :
    inBounds rows cols nb ∧ (nodes nb).status ≠ Status.wall ∧ adjStep c nb := by
  unfold getNeighbors at h
  simp only [List.mem_filterMap] at h
  obtain ⟨d, hd, hval⟩ := h
  by_cases hcond : inBounds rows cols (c.1 + d.1, c.2 + d.2) ∧
      (nodes (c.1 + d.1, c.2 + d.2)).status ≠ Status.wall
  · rw [if_pos hcond] at hval
    obtain rfl := Option.some.inj hval
    refine ⟨hcond.1, hcond.2, ?_⟩
    unfold adjStep
    simpa using hd
  · rw [if_neg hcond] at hval
    exact absurd hval (by simp)

/-- Erasing the element at index `i` keeps every other member. -/
theorem mem_eraseIdx_of_ne {α : Type} :
    ∀ (l : List α) (i : ℕ) (c x : α), l[i]? = some c → x ∈ l → x ≠ c →
      x ∈ l.eraseIdx i
  | [], i, c, x, h, hx, hne => by simp at hx
  | a :: t, 0, c, x, h, hx, hne => by
    simp only [List.getElem?_cons_zero, Option.some.injEq] at h
    subst h
    rcases List.mem_cons.mp hx with rfl | hxt
    · exact absurd rfl hne
    · simpa [List.eraseIdx] using hxt
  | a :: t, i + 1, c, x, h, hx, hne => by
    simp only [List.getElem?_cons_succ] at h
    rcases List.mem_cons.mp hx with rfl | hxt
    · simp [List.eraseIdx]
    · have := mem_eraseIdx_of_ne t i c x h hxt hne
      simp [List.eraseIdx, this]

/-- Evaluation of the scan step with no current best. -/
theorem scanStep_none_eval (nodes : Cell → NodeRec) (p : ℕ × Cell) :
    scanStep nodes none p =
      if (nodes p.2).status = Status.wall then none else some p := by
  unfold scanStep
  split <;> rfl

/-- Evaluation of the scan step with a current best. -/
theorem scanStep_some_eval (nodes : Cell → NodeRec) (b p : ℕ × Cell) :
    scanStep nodes (some b) p =
      if (nodes p.2).status = Status.wall then some b
      else if (nodes p.2).totalDistance < (nodes b.2).totalDistance then some p
      else if (nodes b.2).totalDistance = (nodes p.2).totalDistance ∧
          hNum (nodes p.2).heuristicDistance < hNum (nodes b.2).heuristicDistance
        then some p
      else some b := by
  unfold scanStep
  split <;> rfl

/-- The scan step never discards a chosen best. -/
theorem scanStep_some (nodes : Cell → NodeRec) (b : ℕ × Cell) (p : ℕ × Cell) :
    ∃ v, scanStep nodes (some b) p = some v := by
  rw [scanStep_some_eval]
  split
  · exact ⟨b, rfl⟩
  · split
    · exact ⟨p, rfl⟩
    · split
      · exact ⟨p, rfl⟩
      · exact ⟨b, rfl⟩

/-- Folding the scan step from a chosen best always yields a chosen best. -/
theorem scanFold_some {nodes : Cell → NodeRec} :
    ∀ (l : List (ℕ × Cell)) (b : ℕ × Cell),
      ∃ q, l.foldl (scanStep nodes) (some b) = some q
  | [], b => ⟨b, rfl⟩
  | p :: t, b => by
    simp only [List.foldl_cons]
    obtain ⟨v, hv⟩ := scanStep_some nodes b p
    rw [hv]
    exact scanFold_some t v

/-- If the scan ends with no best, every scanned cell is a wall. -/
theorem scanFold_none {nodes : Cell → NodeRec} :
    ∀ (l : List (ℕ × Cell)),
      l.foldl (scanStep nodes) none = none →
      ∀ p ∈ l, (nodes p.2).status = Status.wall
  | [], _, p, hp => absurd hp (by simp)
  | p :: t, h, x, hx => by
    simp only [List.foldl_cons] at h
    by_cases hw : (nodes p.2).status = Status.wall
    · rw [scanStep_none_eval, if_pos hw] at h
      rcases List.mem_cons.mp hx with rfl | hxt
      · exact hw
      · exact scanFold_none t h x hxt
    · rw [scanStep_none_eval, if_neg hw] at h
      obtain ⟨q, hq⟩ := @scanFold_some nodes t p
      rw [hq] at h
      exact absurd h (by simp)

/-- The scan's result is a non-wall entry of the scanned list (or the
seed), is lexicographically minimal among all scanned non-wall entries,
and improves on the seed. -/
theorem scanFold_some_facts {nodes : Cell → NodeRec} :
    ∀ (l : List (ℕ × Cell)) (acc : Option (ℕ × Cell)) (q : ℕ × Cell),
      l.foldl (scanStep nodes) acc = some q →
      (∀ b, acc = some b → (nodes b.2).status ≠ Status.wall) →
      (q ∈ l ∨ acc = some q) ∧ (nodes q.2).status ≠ Status.wall ∧
        (∀ p ∈ l, (nodes p.2).status ≠ Status.wall → lexLe nodes q.2 p.2) ∧
        (∀ b, acc = some b → lexLe nodes q.2 b.2)
  | [], acc, q, h, hacc => by
    simp only [List.foldl_nil] at h
    subst h
    exact ⟨Or.inr rfl, hacc q rfl, fun p hp => absurd hp (by simp),
      fun b hb => by rw [Option.some.inj hb]; exact lexLe_refl nodes b.2⟩
  | p :: t, acc, q, h, hacc => by
    simp only [List.foldl_cons] at h
    by_cases hw : (nodes p.2).status = Status.wall
    · have hstep : scanStep nodes acc p = acc := by
        cases acc with
        | none => rw [scanStep_none_eval, if_pos hw]
        | some b => rw [scanStep_some_eval, if_pos hw]
      rw [hstep] at h
      obtain ⟨hmem, hqw, hmin, haccle⟩ := scanFold_some_facts t acc q h hacc
      refine ⟨?_, hqw, ?_, haccle⟩
      · rcases hmem with hval | hval
        · exact Or.inl (List.mem_cons_of_mem p hval)
        · exact Or.inr hval
      · intro x hx hxw
        rcases List.mem_cons.mp hx with rfl | hxt
        · exact absurd hw hxw
        · exact hmin x hxt hxw
    · cases acc with
      | none =>
        rw [scanStep_none_eval, if_neg hw] at h
        obtain ⟨hmem, hqw, hmin, haccle⟩ :=
          scanFold_some_facts t (some p) q h
            (by rintro b hb; exact (Option.some.inj hb) ▸ hw)
        refine ⟨?_, hqw, ?_, by rintro b hb; cases hb⟩
        · rcases hmem with hval | hval
          · exact Or.inl (List.mem_cons_of_mem p hval)
          · exact Or.inl (by rw [Option.some.inj hval]; exact List.mem_cons_self q t)
        · intro x hx hxw
          rcases List.mem_cons.mp hx with rfl | hxt
          · exact haccle _ rfl
          · exact hmin x hxt hxw
      | some b =>
        rw [scanStep_some_eval, if_neg hw] at h
        have hbw : (nodes b.2).status ≠ Status.wall := hacc b rfl
        -- the comparison chooses a non-wall entry `v` with `lexLe v b` and
        -- `lexLe v p`
        have hchoice : ∃ v, (if (nodes p.2).totalDistance < (nodes b.2).totalDistance
              then some p
              else if (nodes b.2).totalDistance = (nodes p.2).totalDistance ∧
                  hNum (nodes p.2).heuristicDistance < hNum (nodes b.2).heuristicDistance
                then some p else some b) = some v ∧
            (v = p ∨ v = b) ∧ lexLe nodes v.2 b.2 ∧ lexLe nodes v.2 p.2 := by
          split
          · next hlt =>
            exact ⟨p, rfl, Or.inl rfl,
              ⟨le_of_lt hlt, fun he => absurd he (ne_of_lt hlt)⟩, lexLe_refl _ _⟩
          · split
            · next hcond =>
              exact ⟨p, rfl, Or.inl rfl, ⟨le_of_eq hcond.1.symm,
                fun _ => le_of_lt hcond.2⟩, lexLe_refl _ _⟩
            · next hlt hcond =>
              refine ⟨b, rfl, Or.inr rfl, lexLe_refl _ _,
                ⟨le_of_not_lt hlt, fun he => ?_⟩⟩
              exact le_of_not_lt fun hn => hcond ⟨he, hn⟩
        obtain ⟨v, hv, hvor, hvb, hvp⟩ := hchoice
        rw [hv] at h
        have hvw : (nodes v.2).status ≠ Status.wall := by
          rcases hvor with rfl | rfl
          · exact hw
          · exact hbw
        obtain ⟨hmem, hqw, hmin, haccle⟩ :=
          scanFold_some_facts t (some v) q h
            (by rintro b' hb'; exact (Option.some.inj hb') ▸ hvw)
        have hqv : lexLe nodes q.2 v.2 := haccle v rfl
        refine ⟨?_, hqw, ?_, ?_⟩
        · rcases hmem with hval | hval
          · exact Or.inl (List.mem_cons_of_mem p hval)
          · obtain rfl := Option.some.inj hval
            rcases hvor with rfl | rfl
            · exact Or.inl (List.mem_cons_self _ _)
            · exact Or.inr rfl
        · intro x hx hxw
          rcases List.mem_cons.mp hx with rfl | hxt
          · exact lexLe_trans hqv hvp
          · exact hmin x hxt hxw
        · rintro b' hb'
          exact (Option.some.inj hb') ▸ lexLe_trans hqv hvb

/-- When `findClosestNode` returns a node, that node sits at the spliced
index of the unvisited list, is not a wall, and is lexicographically
minimal (total distance, then cached heuristic) among the non-wall
entries. -/
theorem findClosestNode_some_facts {nodes : Cell → NodeRec} {us : List Cell}
    {c : Cell} {us' : List Cell}
    (h : findClosestNode nodes us = (some c, us')) :
    ∃ i, us[i]? = some c ∧ us' = us.eraseIdx i ∧ i < us.length ∧
      (nodes c).status ≠ Status.wall ∧ c ∈ us ∧
      ∀ x ∈ us, (nodes x).status ≠ Status.wall → lexLe nodes c x := by
  unfold findClosestNode at h
  cases hscan : findClosestScan nodes us with
  | none => rw [hscan] at h; cases h
  | some q =>
    rw [hscan] at h
    obtain ⟨i, c₀⟩ := q
    simp only [Prod.mk.injEq, Option.some.injEq] at h
    obtain ⟨rfl, rfl⟩ := h
    unfold findClosestScan at hscan
    obtain ⟨hmem, hqw, hmin, -⟩ :=
      scanFold_some_facts us.enum none (i, c₀) hscan (by rintro b hb; cases hb)
    have hmem' : (i, c₀) ∈ us.enum := by
      rcases hmem with hval | hval
      · exact hval
      · cases hval
    have hget : us[i]? = some c₀ := List.mem_enum_iff_getElem?.mp hmem'
    have hlt : i < us.length := by
      rcases List.getElem?_eq_some.mp hget with ⟨hl, -⟩
      exact hl
    refine ⟨i, hget, rfl, hlt, hqw, List.getElem?_mem hget, ?_⟩
    intro x hx hxw
    obtain ⟨j, hj⟩ := List.mem_iff_getElem?.mp hx
    exact hmin (j, x) (List.mem_enum_iff_getElem?.mpr hj) hxw

/-- When `findClosestNode` returns `null`, every unvisited entry is a
wall. -/
theorem findClosestNode_none_facts {nodes : Cell → NodeRec} {us : List Cell}
    {us' : List Cell} (h : findClosestNode nodes us = (none, us')) :
    ∀ x ∈ us, (nodes x).status = Status.wall := by
  unfold findClosestNode at h
  cases hscan : findClosestScan nodes us with
  | some q => rw [hscan] at h; cases h
  | none =>
    intro x hx
    obtain ⟨j, hj⟩ := List.mem_iff_getElem?.mp hx
    exact scanFold_none us.enum hscan (j, x) (List.mem_enum_iff_getElem?.mpr hj)

/-- The falsy cache check accepts exactly `null` and `0`. -/
theorem hFalsy_eq_true {o : Option ℕ} :
    hFalsy o = true ↔ o = none ∨ o = some 0 := by
  cases o with
  | none => simp [hFalsy]
  | some n => simp [hFalsy]

/-- Case analysis of the heuristic caching step. -/
theorem cacheHeuristic_cases (rec : NodeRec) (nb target : Cell) :
    (hFalsy rec.heuristicDistance = true ∧ cacheHeuristic rec nb target =
      { rec with
        heuristicDistance := some (manhattanDistance nb target),
        hCount := rec.hCount + 1 }) ∨
    (hFalsy rec.heuristicDistance = false ∧ cacheHeuristic rec nb target = rec) := by
  unfold cacheHeuristic
  by_cases h : hFalsy rec.heuristicDistance = true
  · exact Or.inl ⟨h, by rw [if_pos h]⟩
  · exact Or.inr ⟨by simpa using h, by rw [if_neg h]⟩

/-- After the caching step the heuristic field is always set. -/
theorem cacheHeuristic_heur_ne_none (rec : NodeRec) (nb target : Cell) :
    (cacheHeuristic rec nb target).heuristicDistance ≠ none := by
  rcases cacheHeuristic_cases rec nb target with ⟨-, h⟩ | ⟨hF, h⟩
  · rw [h]; simp
  · rw [h]
    cases ho : rec.heuristicDistance with
    | none => rw [ho] at hF; simp [hFalsy] at hF
    | some k => simp

/-- Case analysis of the conditional relaxation write. -/
theorem applyRelax_cases (rec : NodeRec) (cand : ℕ∞) (cur : Cell)
    (path : List Move) (dir : Option Direction) :
    (cand < rec.distance ∧ applyRelax rec cand cur path dir =
      { rec with
        distance := cand,
        totalDistance := cand + (hNum rec.heuristicDistance : ℕ∞),
        previousNode := some cur,
        path := path,
        direction := dir }) ∨
    (¬ cand < rec.distance ∧ applyRelax rec cand cur path dir = rec) := by
  unfold applyRelax
  by_cases h : cand < rec.distance
  · exact Or.inl ⟨h, by rw [if_pos h]⟩
  · exact Or.inr ⟨h, by rw [if_neg h]⟩

/-- A relaxation from a cell at infinite distance has an infinite
candidate. -/
theorem relaxCand_eq_top {nodes : Cell → NodeRec} {cur : Cell} (nb : Cell)
    (h : (nodes cur).distance = ⊤) : relaxCand nodes cur nb = ⊤ := by
  unfold relaxCand
  simp [h]

/-- Pointwise evaluation of `updateSingleNeighbor`. -/
theorem updateSingleNeighbor_apply (nodes : Cell → NodeRec)
    (cur nb target c : Cell) :
    updateSingleNeighbor nodes cur nb target c =
      if c = nb then
        applyRelax (cacheHeuristic (nodes nb) nb target) (relaxCand nodes cur nb)
          cur (calculateNodeDistance cur nb (nodes cur).direction).2.1
          (calculateNodeDistance cur nb (nodes cur).direction).2.2
      else nodes c := rfl

/-- One relaxation preserves the run invariant, never touches a status,
and never increases a distance or total distance. -/
theorem updateSingle_facts (g : Grid) (start target : Cell) (s : SearchState)
    (cur nb : Cell) (hInv : Inv g start target s) (hAnim : s.animate ≠ [])
    (hb : inBounds g.rows g.cols nb)
    (hw : (s.nodes nb).status ≠ Status.wall) (hadj : adjStep cur nb) :
    Inv g start target ⟨updateSingleNeighbor s.nodes cur nb target, s.animate⟩ ∧
    (∀ x, (updateSingleNeighbor s.nodes cur nb target x).status =
      (s.nodes x).status) ∧
    stepLE s ⟨updateSingleNeighbor s.nodes cur nb target, s.animate⟩ := by
  classical
  set u := updateSingleNeighbor s.nodes cur nb target with hu
  have hne : ∀ x, x ≠ nb → u x = s.nodes x := by
    intro x hx
    rw [hu, updateSingleNeighbor_apply, if_neg hx]
  have hnb : u nb = applyRelax (cacheHeuristic (s.nodes nb) nb target)
      (relaxCand s.nodes cur nb) cur
      (calculateNodeDistance cur nb (s.nodes cur).direction).2.1
      (calculateNodeDistance cur nb (s.nodes cur).direction).2.2 := by
    rw [hu, updateSingleNeighbor_apply, if_pos rfl]
  -- unified record facts about `u nb`
  have hA : ((u nb).status = (s.nodes nb).status ∧
      (u nb).weight = (s.nodes nb).weight) ∧
      (u nb).heuristicDistance ≠ none ∧
      (∀ k, (u nb).heuristicDistance = some k → k = manhattanDistance nb target) ∧
      ((u nb).heuristicDistance = (s.nodes nb).heuristicDistance ∨
        ((u nb).heuristicDistance = some (manhattanDistance nb target) ∧
          ((s.nodes nb).heuristicDistance = none ∨
            (s.nodes nb).heuristicDistance = some 0))) ∧
      ((u nb).hCount = (s.nodes nb).hCount ∨
        ((u nb).hCount = (s.nodes nb).hCount + 1 ∧
          ((s.nodes nb).heuristicDistance = none ∨
            (s.nodes nb).heuristicDistance = some 0))) ∧
      (((u nb).distance = relaxCand s.nodes cur nb ∧
          (u nb).previousNode = some cur ∧
          relaxCand s.nodes cur nb < (s.nodes nb).distance ∧
          (u nb).totalDistance =
            relaxCand s.nodes cur nb + (hNum (u nb).heuristicDistance : ℕ∞)) ∨
        ((u nb).distance = (s.nodes nb).distance ∧
          (u nb).previousNode = (s.nodes nb).previousNode ∧
          (u nb).totalDistance = (s.nodes nb).totalDistance)) := by
    rcases cacheHeuristic_cases (s.nodes nb) nb target with ⟨hF, hcache⟩ | ⟨hF, hcache⟩ <;>
      rcases applyRelax_cases (cacheHeuristic (s.nodes nb) nb target)
        (relaxCand s.nodes cur nb) cur
        (calculateNodeDistance cur nb (s.nodes cur).direction).2.1
        (calculateNodeDistance cur nb (s.nodes cur).direction).2.2 with
        ⟨hC, hrel⟩ | ⟨hC, hrel⟩
    · -- heuristic cached, relaxation fired
      refine ⟨⟨by rw [hnb, hrel, hcache], by rw [hnb, hrel, hcache]⟩, ?_, ?_, ?_, ?_, ?_⟩
      · rw [hnb, hrel, hcache]; simp
      · intro k hk
        rw [hnb, hrel, hcache] at hk
        simpa using hk.symm
      · exact Or.inr ⟨by rw [hnb, hrel, hcache], hFalsy_eq_true.mp hF⟩
      · exact Or.inr ⟨by rw [hnb, hrel, hcache], hFalsy_eq_true.mp hF⟩
      · refine Or.inl ⟨by rw [hnb, hrel], by rw [hnb, hrel], ?_, by rw [hnb, hrel]⟩
        rw [hcache] at hC
        exact hC
    · -- heuristic cached, no improvement
      refine ⟨⟨by rw [hnb, hrel, hcache], by rw [hnb, hrel, hcache]⟩, ?_, ?_, ?_, ?_, ?_⟩
      · rw [hnb, hrel, hcache]; simp
      · intro k hk
        rw [hnb, hrel, hcache] at hk
        simpa using hk.symm
      · exact Or.inr ⟨by rw [hnb, hrel, hcache], hFalsy_eq_true.mp hF⟩
      · exact Or.inr ⟨by rw [hnb, hrel, hcache], hFalsy_eq_true.mp hF⟩
      · refine Or.inr ⟨?_, ?_, ?_⟩ <;> rw [hnb, hrel, hcache]
    · -- heuristic already cached earlier, relaxation fired
      have hsome : ∃ k, (s.nodes nb).heuristicDistance = some k ∧ k ≠ 0 := by
        rcases ho : (s.nodes nb).heuristicDistance with - | k
        · rw [ho] at hF; simp [hFalsy] at hF
        · refine ⟨k, rfl, ?_⟩
          intro hk0
          rw [ho, hk0] at hF
          simp [hFalsy] at hF
      obtain ⟨k, hk, -⟩ := hsome
      refine ⟨⟨by rw [hnb, hrel, hcache], by rw [hnb, hrel, hcache]⟩, ?_, ?_, ?_, ?_, ?_⟩
      · rw [hnb, hrel, hcache, hk]; simp
      · intro k' hk'
        rw [hnb, hrel, hcache] at hk'
        exact hInv.heur_eq nb k' hk'
      · exact Or.inl (by rw [hnb, hrel, hcache])
      · exact Or.inl (by rw [hnb, hrel, hcache])
      · refine Or.inl ⟨by rw [hnb, hrel], by rw [hnb, hrel], ?_, by rw [hnb, hrel]⟩
        rw [hcache] at hC
        exact hC
    · -- heuristic already cached earlier, no improvement
      have hsome : ∃ k, (s.nodes nb).heuristicDistance = some k := by
        rcases ho : (s.nodes nb).heuristicDistance with - | k
        · rw [ho] at hF; simp [hFalsy] at hF
        · exact ⟨k, rfl⟩
      obtain ⟨k, hk⟩ := hsome
      refine ⟨⟨by rw [hnb, hrel, hcache], by rw [hnb, hrel, hcache]⟩, ?_, ?_, ?_, ?_, ?_⟩
      · rw [hnb, hrel, hcache, hk]; simp
      · intro k' hk'
        rw [hnb, hrel, hcache] at hk'
        exact hInv.heur_eq nb k' hk'
      · exact Or.inl (by rw [hnb, hrel, hcache])
      · exact Or.inl (by rw [hnb, hrel, hcache])
      · refine Or.inr ⟨?_, ?_, ?_⟩ <;> rw [hnb, hrel, hcache]
  obtain ⟨⟨hstat, hwt⟩, hhne, hheq, hhrel, hhc, hcases⟩ := hA
  have hstatus : ∀ x, (u x).status = (s.nodes x).status := by
    intro x
    by_cases hx : x = nb
    · subst hx; exact hstat
    · rw [hne x hx]
  -- when the relaxation fired, the relaxing cell was at finite distance,
  -- hence reachable, and the neighbor is reachable through it
  have hreach_nb : relaxCand s.nodes cur nb < (s.nodes nb).distance →
      Reach g start nb := by
    intro hlt
    have hcur : (s.nodes cur).distance ≠ ⊤ := by
      intro htop
      rw [relaxCand_eq_top nb htop] at hlt
      exact not_top_lt hlt
    refine Relation.ReflTransGen.tail (hInv.reach_of_finite cur hcur) ?_
    refine ⟨hadj, hb, ?_⟩
    intro hgw
    exact hw ((hInv.wall_iff nb).mpr hgw)
  -- the relaxation never fires at the start cell
  have hnb_start : nb = start →
      (u nb).distance = (s.nodes nb).distance ∧
      (u nb).previousNode = (s.nodes nb).previousNode ∧
      (u nb).totalDistance = (s.nodes nb).totalDistance := by
    intro hs
    rcases hcases with ⟨-, -, hlt, -⟩ | hsame
    · rw [hs, hInv.start_zero.1] at hlt
      exact absurd hlt (ENat.not_lt_zero _)
    · exact hsame
  refine ⟨?_, hstatus, ?_⟩
  · refine ⟨?_, ?_, ?_, ?_, ?_, ?_, ?_, ?_, ?_, ?_, ?_, ?_, ?_, ?_⟩ <;> dsimp only
    · -- wall_iff
      intro c
      rw [hstatus c]
      exact hInv.wall_iff c
    · -- reach_of_finite
      intro c hc
      by_cases hx : c = nb
      · subst hx
        rcases hcases with ⟨-, -, hlt, -⟩ | ⟨hd, -, -⟩
        · exact hreach_nb hlt
        · rw [hd] at hc
          exact hInv.reach_of_finite c hc
      · rw [hne c hx] at hc
        exact hInv.reach_of_finite c hc
    · -- reach_of_prev
      intro c hc
      by_cases hx : c = nb
      · subst hx
        rcases hcases with ⟨-, -, hlt, -⟩ | ⟨-, hp, -⟩
        · exact hreach_nb hlt
        · rw [hp] at hc
          exact hInv.reach_of_prev c hc
      · rw [hne c hx] at hc
        exact hInv.reach_of_prev c hc
    · -- heur_eq
      intro c k hk
      by_cases hx : c = nb
      · subst hx
        exact hheq k hk
      · rw [hne c hx] at hk
        exact hInv.heur_eq c k hk
    · -- heur_some
      intro c hcs hcd
      by_cases hx : c = nb
      · subst hx
        exact hhne
      · rw [hne c hx] at hcd ⊢
        exact hInv.heur_some c hcs hcd
    · -- total_eq
      intro c hcs
      by_cases hx : c = nb
      · subst hx
        rcases hcases with ⟨hd, -, -, ht⟩ | ⟨hd, -, ht⟩
        · rw [ht, hd]
        · rw [ht, hd]
          rcases hhrel with hsame | ⟨hnew, hold⟩
          · rw [hsame]
            exact hInv.total_eq c hcs
          · rcases hold with hnone | hzero
            · -- previously uncached: the old distance must be infinite
              have hdtop : (s.nodes c).distance = ⊤ := by
                by_contra hfin
                exact hInv.heur_some c hcs hfin hnone
              rw [hInv.total_eq c hcs, hdtop, hnone, hnew]
              simp [hNum]
            · -- previously cached as 0: the recomputed value is 0 again
              have h0 : (0 : ℕ) = manhattanDistance c target :=
                hInv.heur_eq c 0 hzero
              rw [hInv.total_eq c hcs, hzero, hnew, ← h0]
      · rw [hne c hx]
        exact hInv.total_eq c hcs
    · -- start_zero
      by_cases hx : start = nb
      · obtain ⟨hd, -, ht⟩ := hnb_start hx.symm
        rw [← hx] at hd ht
        rw [hd, ht]
        exact hInv.start_zero
      · rw [hne start (fun h => hx h)]
        exact hInv.start_zero
    · -- wall_dist
      intro c hcw hcs
      rw [hstatus c] at hcw
      have hcnb : c ≠ nb := by
        rintro rfl
        exact hw hcw
      rw [hne c hcnb]
      exact hInv.wall_dist c hcw hcs
    · -- wall_not_anim
      intro c hcw
      rw [hstatus c] at hcw
      exact hInv.wall_not_anim c hcw
    · -- anim_visited
      intro c hc
      rw [hstatus c]
      exact hInv.anim_visited c hc
    · -- anim_head
      exact hInv.anim_head
    · -- fresh
      intro h
      exact absurd h hAnim
    · -- hcount_le
      intro c hct
      by_cases hx : c = nb
      · subst hx
        rcases hhc with hsame | ⟨hbump, hold⟩
        · rw [hsame]
          exact hInv.hcount_le c hct
        · rcases hold with hnone | hzero
          · rw [hbump, hInv.hcount_zero c hnone]
          · have h0 : (0 : ℕ) = manhattanDistance c target :=
              hInv.heur_eq c 0 hzero
            have : c = target := manhattanDistance_eq_zero.mp h0.symm
            exact absurd this hct
      · rw [hne c hx]
        exact hInv.hcount_le c hct
    · -- hcount_zero
      intro c hch
      by_cases hx : c = nb
      · subst hx
        exact absurd hch hhne
      · rw [hne c hx] at hch ⊢
        exact hInv.hcount_zero c hch
  · -- stepLE
    intro c
    dsimp only
    by_cases hx : c = nb
    · subst hx
      rcases hcases with ⟨hd, -, hlt, ht⟩ | ⟨hd, -, ht⟩
      · constructor
        · rw [hd]
          exact le_of_lt hlt
        · -- the total distance also decreases
          by_cases hcs : c = start
          · rw [hcs, hInv.start_zero.1] at hlt
            exact absurd hlt (ENat.not_lt_zero _)
          · rw [ht, hInv.total_eq c hcs]
            rcases hhrel with hsame | ⟨hnew, hold⟩
            · rw [hsame]
              exact le_of_lt ((WithTop.add_lt_add_iff_right
                (ENat.coe_ne_top _)).mpr hlt)
            · rcases hold with hnone | hzero
              · have hdtop : (s.nodes c).distance = ⊤ := by
                  by_contra hfin
                  exact hInv.heur_some c hcs hfin hnone
                rw [hdtop, hnone]
                simp
              · have h0 : (0 : ℕ) = manhattanDistance c target :=
                  hInv.heur_eq c 0 hzero
                rw [hzero, hnew, ← h0]
                exact le_of_lt ((WithTop.add_lt_add_iff_right
                  (ENat.coe_ne_top _)).mpr hlt)
      · rw [hd, ht]
        exact ⟨le_refl _, le_refl _⟩
    · rw [hne c hx]
      exact ⟨le_refl _, le_refl _⟩

/-- Relaxing a list of valid neighbors in sequence preserves the run
invariant, never touches a status, and never increases distances. -/
theorem foldRelax_facts (g : Grid) (start target cur : Cell) :
    ∀ (l : List Cell) (s : SearchState), Inv g start target s → s.animate ≠ [] →
      (∀ nb ∈ l, inBounds g.rows g.cols nb ∧ adjStep cur nb ∧
        (s.nodes nb).status ≠ Status.wall) →
      Inv g start target
        ⟨l.foldl (fun ns nb => updateSingleNeighbor ns cur nb target) s.nodes,
          s.animate⟩ ∧
      (∀ x, ((l.foldl (fun ns nb => updateSingleNeighbor ns cur nb target)
          s.nodes) x).status = (s.nodes x).status) ∧
      stepLE s
        ⟨l.foldl (fun ns nb => updateSingleNeighbor ns cur nb target) s.nodes,
          s.animate⟩
  | [], s, hInv, hAnim, hcond => ⟨hInv, fun x => rfl, stepLE_refl s⟩
  | nb :: t, s, hInv, hAnim, hcond => by
    simp only [List.foldl_cons]
    obtain ⟨hb, hadj, hwst⟩ := hcond nb (List.mem_cons_self nb t)
    obtain ⟨hInv₁, hstat₁, hle₁⟩ :=
      updateSingle_facts g start target s cur nb hInv hAnim hb hwst hadj
    obtain ⟨hInv₂, hstat₂, hle₂⟩ :=
      foldRelax_facts g start target cur t
        ⟨updateSingleNeighbor s.nodes cur nb target, s.animate⟩ hInv₁ hAnim
        (by
          intro nb' hnb'
          obtain ⟨h1, h2, h3⟩ := hcond nb' (List.mem_cons_of_mem nb hnb')
          refine ⟨h1, h2, ?_⟩
          dsimp only
          rw [hstat₁ nb']
          exact h3)
    refine ⟨hInv₂, ?_, stepLE_trans hle₁ hle₂⟩
    intro x
    rw [hstat₂ x]
    exact hstat₁ x

/-- `updateNeighbors` preserves the run invariant, never touches a status,
and never increases distances. -/
theorem updateNeighbors_facts (g : Grid) (start target cur : Cell)
    (s : SearchState) (hInv : Inv g start target s) (hAnim : s.animate ≠ []) :
    Inv g start target
      ⟨updateNeighbors s.nodes g.rows g.cols cur target, s.animate⟩ ∧
    (∀ x, ((updateNeighbors s.nodes g.rows g.cols cur target) x).status =
      (s.nodes x).status) ∧
    stepLE s ⟨updateNeighbors s.nodes g.rows g.cols cur target, s.animate⟩ := by
  unfold updateNeighbors
  exact foldRelax_facts g start target cur
    (getNeighbors s.nodes g.rows g.cols cur) s hInv hAnim
    (fun nb hnb => by
      obtain ⟨h1, h2, h3⟩ := getNeighbors_mem hnb
      exact ⟨h1, h3, h2⟩)

/-- A cell of the freshly initialized dictionary other than the start has
infinite distance. -/
theorem initNodes_ne_start (g : Grid) (start c : Cell) (h : c ≠ start) :
    (initStartNode (initState g) start).nodes c =
      { status := g.status c, distance := ⊤, totalDistance := ⊤,
        heuristicDistance := none, weight := g.weight c, previousNode := none,
        path := [], direction := none, hCount := 0 } := by
  unfold initStartNode initState
  dsimp only
  rw [if_neg h]

/-- Visiting an extracted non-wall cell at finite distance preserves the
run invariant; the trace grows by that cell and distances are
unchanged. -/
theorem visit_facts (g : Grid) (start target : Cell) (s : SearchState) (c : Cell)
    (hInv : Inv g start target s) (hwc : (s.nodes c).status ≠ Status.wall)
    (hdc : (s.nodes c).distance ≠ ⊤) :
    Inv g start target (visitCell s c) ∧ stepLE s (visitCell s c) ∧
      (visitCell s c).animate = s.animate ++ [c] ∧
      (visitCell s c).animate ≠ [] := by
  have happ : ∀ x, (visitCell s c).nodes x =
      if x = c then { s.nodes c with status := Status.visited } else s.nodes x :=
    fun x => rfl
  have hanim : (visitCell s c).animate = s.animate ++ [c] := rfl
  have hstat : ∀ x, x ≠ c → ((visitCell s c).nodes x).status = (s.nodes x).status := by
    intro x hx
    rw [happ, if_neg hx]
  have hkeep : ∀ x,
      ((visitCell s c).nodes x).distance = (s.nodes x).distance ∧
      ((visitCell s c).nodes x).totalDistance = (s.nodes x).totalDistance ∧
      ((visitCell s c).nodes x).heuristicDistance = (s.nodes x).heuristicDistance ∧
      ((visitCell s c).nodes x).previousNode = (s.nodes x).previousNode ∧
      ((visitCell s c).nodes x).hCount = (s.nodes x).hCount := by
    intro x
    by_cases hx : x = c
    · subst hx
      rw [happ, if_pos rfl]
      exact ⟨rfl, rfl, rfl, rfl, rfl⟩
    · rw [happ, if_neg hx]
      exact ⟨rfl, rfl, rfl, rfl, rfl⟩
  have hstart_c : s.animate = [] → c = start := by
    intro h
    by_contra hcs
    have := hInv.fresh h c
    rw [initNodes_ne_start g start c hcs] at this
    rw [this] at hdc
    exact hdc rfl
  have hcvis : ((visitCell s c).nodes c).status = Status.visited := by
    rw [happ, if_pos rfl]
  refine ⟨?_, ?_, hanim, by rw [hanim]; simp⟩
  · refine ⟨?_, ?_, ?_, ?_, ?_, ?_, ?_, ?_, ?_, ?_, ?_, ?_, ?_, ?_⟩
    · -- wall_iff
      intro x
      by_cases hx : x = c
      · subst hx
        rw [hcvis]
        constructor
        · intro h; cases h
        · intro h
          exact absurd ((hInv.wall_iff x).mpr h) hwc
      · rw [hstat x hx]
        exact hInv.wall_iff x
    · -- reach_of_finite
      intro x hx
      rw [(hkeep x).1] at hx
      exact hInv.reach_of_finite x hx
    · -- reach_of_prev
      intro x hx
      rw [(hkeep x).2.2.2.1] at hx
      exact hInv.reach_of_prev x hx
    · -- heur_eq
      intro x k hk
      rw [(hkeep x).2.2.1] at hk
      exact hInv.heur_eq x k hk
    · -- heur_some
      intro x hxs hxd
      rw [(hkeep x).1] at hxd
      rw [(hkeep x).2.2.1]
      exact hInv.heur_some x hxs hxd
    · -- total_eq
      intro x hxs
      rw [(hkeep x).1, (hkeep x).2.1, (hkeep x).2.2.1]
      exact hInv.total_eq x hxs
    · -- start_zero
      rw [(hkeep start).1, (hkeep start).2.1]
      exact hInv.start_zero
    · -- wall_dist
      intro x hxw hxs
      have hx : x ≠ c := by
        rintro rfl
        rw [hcvis] at hxw
        cases hxw
      rw [hstat x hx] at hxw
      rw [(hkeep x).1]
      exact hInv.wall_dist x hxw hxs
    · -- wall_not_anim
      intro x hxw
      have hx : x ≠ c := by
        rintro rfl
        rw [hcvis] at hxw
        cases hxw
      rw [hstat x hx] at hxw
      rw [hanim]
      simp only [List.mem_append, List.mem_singleton]
      rintro (hmem | rfl)
      · exact hInv.wall_not_anim x hxw hmem
      · exact hx rfl
    · -- anim_visited
      intro x hx
      rw [hanim] at hx
      simp only [List.mem_append, List.mem_singleton] at hx
      rcases hx with hmem | rfl
      · by_cases hxc : x = c
        · subst hxc; exact hcvis
        · rw [hstat x hxc]
          exact hInv.anim_visited x hmem
      · exact hcvis
    · -- anim_head
      intro hne
      rw [hanim]
      by_cases he : s.animate = []
      · rw [he, List.nil_append]
        rw [hstart_c he]
        rfl
      · rw [List.head?_append_of_ne_nil _ he]
        exact hInv.anim_head he
    · -- fresh
      intro h
      rw [hanim] at h
      exact absurd h (by simp)
    · -- hcount_le
      intro x hx
      rw [(hkeep x).2.2.2.2]
      exact hInv.hcount_le x hx
    · -- hcount_zero
      intro x hx
      rw [(hkeep x).2.2.1] at hx
      rw [(hkeep x).2.2.2.2]
      exact hInv.hcount_zero x hx
  · -- stepLE
    intro x
    rw [(hkeep x).1, (hkeep x).2.1]
    exact ⟨le_refl _, le_refl _⟩

/-- The state right after `initializeStartNode` satisfies the run
invariant. -/
theorem init_inv (g : Grid) (start target : Cell) :
    Inv g start target (initStartNode (initState g) start) := by
  have happ : ∀ c, (initStartNode (initState g) start).nodes c =
      if c = start then
        { status := g.status start, distance := 0, totalDistance := 0,
          heuristicDistance := none, weight := g.weight start,
          previousNode := none, path := [], direction := some Direction.up,
          hCount := 0 }
      else
        { status := g.status c, distance := ⊤, totalDistance := ⊤,
          heuristicDistance := none, weight := g.weight c, previousNode := none,
          path := [], direction := none, hCount := 0 } := by
    intro c
    unfold initStartNode initState
    dsimp only
  refine ⟨?_, ?_, ?_, ?_, ?_, ?_, ?_, ?_, ?_, ?_, ?_, ?_, ?_, ?_⟩
  · intro c
    rw [happ c]
    split <;> next h => first
      | (subst h; exact Iff.rfl)
      | exact Iff.rfl
  · intro c hc
    rw [happ c] at hc
    by_cases h : c = start
    · subst h
      exact Relation.ReflTransGen.refl
    · rw [if_neg h] at hc
      exact absurd rfl hc
  · intro c hc
    rw [happ c] at hc
    split at hc <;> exact absurd rfl hc
  · intro c k hk
    rw [happ c] at hk
    split at hk <;> cases hk
  · intro c hcs hcd
    rw [happ c] at hcd
    rw [if_neg hcs] at hcd
    exact absurd rfl hcd
  · intro c hcs
    rw [happ c, if_neg hcs]
    simp [hNum]
  · constructor <;> rw [happ start, if_pos rfl]
  · intro c hcw hcs
    rw [happ c, if_neg hcs]
  · intro c hcw
    simp [initStartNode, initState]
  · intro c hc
    simp [initStartNode, initState] at hc
  · intro h
    simp [initStartNode, initState] at h
  · intro h c
    rfl
  · intro c hc
    rw [happ c]
    split <;> simp
  · intro c hc
    rw [happ c]
    split <;> rfl

/-- The facts of a loop call that returns immediately with outcome `o`
and unchanged state. -/
theorem loopFacts_const (g : Grid) (start target : Cell) (fuel : ℕ)
    (us : List Cell) (s : SearchState) (o : Outcome)
    (ho : o ≠ Outcome.success)
    (hoo : us.length ≤ fuel → o ≠ Outcome.outOfFuel)
    (hfail : us.length ≤ fuel → target ∈ us → g.status target ≠ Status.wall →
      ¬ Reach g start target → o = Outcome.failed)
    (hInv : Inv g start target s) :
    LoopFacts g start target fuel us s (o, s, [s]) := by
  refine ⟨?_, ?_, rfl, hInv, stepLE_refl s, ?_, hoo, hfail⟩
  · intro st hst
    simp only [List.mem_singleton] at hst
    subst hst
    exact hInv
  · exact List.chain'_singleton s
  · intro h
    exact absurd h ho

/-- The master induction over the main loop: every intermediate state
satisfies the run invariant, the states are chronologically monotone, a
successful run ends its trace at the target, the fuel supplied by the
entry point never runs out, and an unreachable non-wall target forces the
Failed outcome. -/
theorem astarLoop_facts (g : Grid) (start target : Cell) :
    ∀ (fuel : ℕ) (us : List Cell) (s : SearchState), Inv g start target s →
      LoopFacts g start target fuel us s
        (astarLoop g.rows g.cols target fuel us s)
  | fuel, [], s, hInv => by
    have he : astarLoop g.rows g.cols target fuel [] s =
        (Outcome.failed, s, [s]) := by
      cases fuel <;> rfl
    rw [he]
    exact loopFacts_const g start target fuel [] s Outcome.failed
      (by intro h; cases h) (fun _ h => by cases h) (fun _ _ _ _ => rfl) hInv
  | 0, u :: rest, s, hInv => by
    have he : astarLoop g.rows g.cols target 0 (u :: rest) s =
        (Outcome.outOfFuel, s, [s]) := rfl
    rw [he]
    refine loopFacts_const g start target 0 (u :: rest) s Outcome.outOfFuel
      (by intro h; cases h) ?_ ?_ hInv
    · intro h
      simp at h
    · intro h
      simp at h
  | fuel + 1, u :: rest, s, hInv => by
    rcases hfc : findClosestNode s.nodes (u :: rest) with ⟨oc, us'⟩
    cases oc with
    | none =>
      have he : astarLoop g.rows g.cols target (fuel + 1) (u :: rest) s =
          (Outcome.crash, s, [s]) := by
        simp only [astarLoop, hfc]
      rw [he]
      refine loopFacts_const g start target (fuel + 1) (u :: rest) s Outcome.crash
        (by intro h; cases h) (fun _ h => by cases h) ?_ hInv
      intro hfuel htmem hgw hreach
      exfalso
      exact hgw ((hInv.wall_iff target).mp (findClosestNode_none_facts hfc target htmem))
    | some c =>
      obtain ⟨i, hget, hus', hilt, hcw, hcmem, -⟩ := findClosestNode_some_facts hfc
      by_cases hdist : (s.nodes c).distance = ⊤
      · have he : astarLoop g.rows g.cols target (fuel + 1) (u :: rest) s =
            (Outcome.failed, s, [s]) := by
          simp only [astarLoop, hfc]
          rw [if_neg hcw, if_pos hdist]
        rw [he]
        exact loopFacts_const g start target (fuel + 1) (u :: rest) s Outcome.failed
          (by intro h; cases h) (fun _ h => by cases h) (fun _ _ _ _ => rfl) hInv
      · obtain ⟨hInv₁, hle₁, hanim₁, hne₁⟩ := visit_facts g start target s c hInv hcw hdist
        by_cases htgt : c = target
        · have he : astarLoop g.rows g.cols target (fuel + 1) (u :: rest) s =
              (Outcome.success, visitCell s c, [s, visitCell s c]) := by
            simp only [astarLoop, hfc]
            rw [if_neg hcw, if_neg hdist, if_pos htgt]
          rw [he]
          refine ⟨?_, ?_, rfl, hInv₁, hle₁, ?_, (fun _ h => by cases h), ?_⟩
          · intro st hst
            rcases List.mem_cons.mp hst with rfl | hst
            · exact hInv
            · simp only [List.mem_singleton] at hst
              subst hst
              exact hInv₁
          · exact List.chain'_cons.mpr ⟨hle₁, List.chain'_singleton _⟩
          · intro _
            refine ⟨hne₁, ?_⟩
            rw [hanim₁, ← htgt]
            exact List.getLast?_concat _
          · intro hfuel htmem hgw hreach
            exact absurd (htgt ▸ hInv.reach_of_finite c hdist) hreach
        · have he : astarLoop g.rows g.cols target (fuel + 1) (u :: rest) s =
              ((astarLoop g.rows g.cols target fuel us'
                  ⟨updateNeighbors (visitCell s c).nodes g.rows g.cols c target,
                    (visitCell s c).animate⟩).1,
               (astarLoop g.rows g.cols target fuel us'
                  ⟨updateNeighbors (visitCell s c).nodes g.rows g.cols c target,
                    (visitCell s c).animate⟩).2.1,
               s :: visitCell s c :: (astarLoop g.rows g.cols target fuel us'
                  ⟨updateNeighbors (visitCell s c).nodes g.rows g.cols c target,
                    (visitCell s c).animate⟩).2.2) := by
            simp only [astarLoop, hfc]
            rw [if_neg hcw, if_neg hdist, if_neg htgt]
          obtain ⟨hInv₂, hstat₂, hle₂⟩ :=
            updateNeighbors_facts g start target c (visitCell s c) hInv₁ hne₁
          have IH := astarLoop_facts g start target fuel us'
            ⟨updateNeighbors (visitCell s c).nodes g.rows g.cols c target,
              (visitCell s c).animate⟩ hInv₂
          rw [he]
          have hlen : us'.length ≤ fuel → True := fun _ => trivial
          obtain ⟨t', ht'⟩ : ∃ t',
              (astarLoop g.rows g.cols target fuel us'
                ⟨updateNeighbors (visitCell s c).nodes g.rows g.cols c target,
                  (visitCell s c).animate⟩).2.2 =
              ⟨updateNeighbors (visitCell s c).nodes g.rows g.cols c target,
                (visitCell s c).animate⟩ :: t' := by
            have hh := IH.headHist
            cases hl : (astarLoop g.rows g.cols target fuel us'
                ⟨updateNeighbors (visitCell s c).nodes g.rows g.cols c target,
                  (visitCell s c).animate⟩).2.2 with
            | nil => rw [hl] at hh; cases hh
            | cons a t' =>
              rw [hl] at hh
              simp only [List.head?_cons, Option.some.injEq] at hh
              exact ⟨t', by rw [hh]⟩
          have hlen' : (u :: rest).length ≤ fuel + 1 → us'.length ≤ fuel := by
            intro hf
            rw [hus', List.length_eraseIdx, if_pos hilt]
            omega
          refine ⟨?_, ?_, rfl, IH.invFinal,
            stepLE_trans hle₁ (stepLE_trans hle₂ IH.leFinal), IH.successAnim,
            fun hf => IH.noFuelOut (hlen' hf), ?_⟩
          · intro st hst
            rcases List.mem_cons.mp hst with rfl | hst
            · exact hInv
            · rcases List.mem_cons.mp hst with rfl | hst
              · exact hInv₁
              · exact IH.invHist st hst
          · rw [ht']
            refine List.chain'_cons.mpr ⟨hle₁, List.chain'_cons.mpr ⟨hle₂, ?_⟩⟩
            rw [← ht']
            exact IH.monoHist
          · intro hf htmem hgw hreach
            refine IH.unreachFailed (hlen' hf) ?_ hgw hreach
            rw [hus']
            exact mem_eraseIdx_of_ne (u :: rest) i c target hget htmem
              (fun h => htgt h.symm)

/-- A valid call of `astar` (both ids in the grid, distinct) runs the
main loop from the initialized state with fuel equal to the key-list
length, and all loop facts apply to it. -/
theorem runAstar_facts (g : Grid) (start target : Cell)
    (hsb : inBounds g.rows g.cols start) (htb : inBounds g.rows g.cols target)
    (hne : start ≠ target) :
    LoopFacts g start target (keysList g.rows g.cols).length
      (keysList g.rows g.cols) (initStartNode (initState g) start)
      (runAstar g start target) := by
  unfold runAstar astarRun
  dsimp only
  rw [if_pos ⟨hsb, htb⟩, if_neg hne]
  exact astarLoop_facts g start target _ _ _ (init_inv g start target)

/-- An invalid call of `astar` returns `false` with the node dictionary
untouched. -/
theorem astarRun_invalid (g : Grid) (s? t? : Option Cell)
    (h : invalidInput g s? t?) :
    astarRun g s? t? = (Outcome.failed, initState g, [initState g]) := by
  unfold astarRun
  match s?, t? with
  | none, _ => rfl
  | some a, none => rfl
  | some a, some b =>
    dsimp only
    rcases h with hs | ht | heq
    · rw [if_neg (fun hc => hs hc.1)]
    · rw [if_neg (fun hc => ht hc.2)]
    · by_cases hb : inBounds g.rows g.cols a ∧ inBounds g.rows g.cols b
      · rw [if_pos hb, if_pos heq]
      · rw [if_neg hb]

/-- During a run, walking a head step of reachability (for refuting
concrete reachability claims). -/
theorem reach_elim {g : Grid} {a b : Cell} (h : Reach g a b)
    (hne : b ≠ a) : ∃ c, openEdge g a c := by
  rcases Relation.ReflTransGen.cases_head h with he | ⟨c, hedge, -⟩
  · exact absurd he (fun hh => hne hh.symm)
  · exact ⟨c, hedge⟩

/-- An edge step determines the neighbor as one of four offsets. -/
theorem openEdge_shape {g : Grid} {a c : Cell} (h : openEdge g a c) :
    (c = (a.1 - 1, a.2) ∨ c = (a.1 + 1, a.2) ∨ c = (a.1, a.2 - 1) ∨
      c = (a.1, a.2 + 1)) ∧ inBounds g.rows g.cols c ∧
      g.status c ≠ Status.wall := by
  obtain ⟨hadj, hb, hw⟩ := h
  refine ⟨?_, hb, hw⟩
  unfold adjStep dirsCardinal at hadj
  obtain ⟨x, y⟩ := a
  obtain ⟨cx, cy⟩ := c
  simp only [List.mem_cons, List.mem_singleton, Prod.mk.injEq] at hadj
  rcases hadj with ⟨h1, h2⟩ | ⟨h1, h2⟩ | ⟨h1, h2⟩ | (⟨h1, h2⟩ | h)
  · exact Or.inl (by simp only [Prod.mk.injEq]; omega)
  · exact Or.inr (Or.inl (by simp only [Prod.mk.injEq]; omega))
  · exact Or.inr (Or.inr (Or.inl (by simp only [Prod.mk.injEq]; omega)))
  · exact Or.inr (Or.inr (Or.inr (by simp only [Prod.mk.injEq]; omega)))
  · exact absurd h (by simp)

/-- No traversable edge leaves the start of the middle-walled 1 by 3
grid. -/
theorem noReach_gridBlocked : ¬ Reach gridBlocked (0, 0) (0, 2) := by
  intro h
  obtain ⟨c, hedge⟩ := reach_elim h (by decide)
  obtain ⟨hshape, hb, hw⟩ := openEdge_shape hedge
  rcases hshape with rfl | rfl | rfl | rfl
  · exact absurd hb (by decide)
  · exact absurd hb (by decide)
  · exact absurd hb (by decide)
  · exact hw (by decide)

/-- The wall target of the 1 by 2 grid is unreachable. -/
theorem noReach_gridWallTarget : ¬ Reach gridWallTarget (0, 0) (0, 1) := by
  intro h
  obtain ⟨c, hedge⟩ := reach_elim h (by decide)
  obtain ⟨hshape, hb, hw⟩ := openEdge_shape hedge
  rcases hshape with rfl | rfl | rfl | rfl
  · exact absurd hb (by decide)
  · exact absurd hb (by decide)
  · exact absurd hb (by decide)
  · exact hw (by decide)

/-- With unique keys, `lookupD` retrieves the stored value. -/
theorem lookupD_eq_of_mem :
    ∀ {m : List (Cell × ℕ∞)}, (m.map Prod.fst).Nodup →
      ∀ {k : Cell} {v : ℕ∞}, (k, v) ∈ m → lookupD m k = v
  | [], _, k, v, h => absurd h (by simp)
  | p :: t, hnd, k, v, h => by
    simp only [List.map_cons, List.nodup_cons] at hnd
    by_cases hk : p.1 = k
    · rcases List.mem_cons.mp h with he | ht
      · rw [← he]
        unfold lookupD
        simp
      · exact absurd (hk ▸ List.mem_map_of_mem Prod.fst ht) hnd.1
    · rcases List.mem_cons.mp h with he | ht
      · rw [← he] at hk
        exact absurd rfl hk
      · have IH := lookupD_eq_of_mem hnd.2 ht
        unfold lookupD at IH ⊢
        rw [List.find?_cons, decide_eq_false hk]
        exact IH

/-- The reduce of `findNodeWithLowestDistance` keeps a key of the map and
only ever lowers the looked-up value; the result's value is at most every
scanned entry's value. -/
theorem lowestFold_facts (m : List (Cell × ℕ∞)) (hnd : (m.map Prod.fst).Nodup) :
    ∀ (l : List (Cell × ℕ∞)) (acc : Cell), (∀ p ∈ l, p ∈ m) →
      acc ∈ m.map Prod.fst →
      (l.foldl (fun lowest p => if p.2 < lookupD m lowest then p.1 else lowest)
          acc) ∈ m.map Prod.fst ∧
        lookupD m (l.foldl
            (fun lowest p => if p.2 < lookupD m lowest then p.1 else lowest)
            acc) ≤ lookupD m acc ∧
        ∀ p ∈ l, lookupD m (l.foldl
            (fun lowest p => if p.2 < lookupD m lowest then p.1 else lowest)
            acc) ≤ p.2
  | [], acc, hsub, hacc => ⟨hacc, le_refl _, fun p hp => absurd hp (by simp)⟩
  | p :: t, acc, hsub, hacc => by
    simp only [List.foldl_cons]
    by_cases hlt : p.2 < lookupD m acc
    · rw [if_pos hlt]
      have hpm : p ∈ m := hsub p (List.mem_cons_self p t)
      have hp1 : p.1 ∈ m.map Prod.fst := List.mem_map_of_mem Prod.fst hpm
      have hlook : lookupD m p.1 = p.2 :=
        lookupD_eq_of_mem hnd (by simpa using hpm)
      obtain ⟨hmem, hle, hall⟩ := lowestFold_facts m hnd t p.1
        (fun q hq => hsub q (List.mem_cons_of_mem p hq)) hp1
      refine ⟨hmem, ?_, ?_⟩
      · exact le_trans hle (by rw [hlook]; exact le_of_lt hlt)
      · intro q hq
        rcases List.mem_cons.mp hq with rfl | hqt
        · exact le_trans hle (le_of_eq hlook)
        · exact hall q hqt
    · rw [if_neg hlt]
      obtain ⟨hmem, hle, hall⟩ := lowestFold_facts m hnd t acc
        (fun q hq => hsub q (List.mem_cons_of_mem p hq)) hacc
      refine ⟨hmem, hle, ?_⟩
      intro q hq
      rcases List.mem_cons.mp hq with rfl | hqt
      · exact le_trans hle (le_of_not_lt hlt)
      · exact hall q hqt

/-- Characterization of the diagonal-mode candidate check. -/
theorem diagCand_eq_some {nodes : Cell → NodeRec} {rows cols : ℕ} {c : Cell}
    {d : ℤ × ℤ} {x : Cell} :
    diagCand nodes rows cols c d = some x ↔
      x = (c.1 + d.1, c.2 + d.2) ∧ inBounds rows cols (c.1 + d.1, c.2 + d.2) ∧
      (nodes (c.1 + d.1, c.2 + d.2)).status ≠ Status.wall ∧
      (d.1.natAbs = 1 ∧ d.2.natAbs = 1 →
        ¬((nodes (c.1, c.2 + d.2)).status = Status.wall ∧
          (nodes (c.1 + d.1, c.2)).status = Status.wall)) := by
  unfold diagCand
  dsimp only
  constructor
  · intro hx
    split_ifs at hx with h1 h2 h3 h4 h5
    · refine ⟨(Option.some.inj hx).symm, h1, h4, fun _ => ?_⟩
      rcases h3 with h | h
      · exact fun hc => h hc.1
      · exact fun hc => h hc.2
    · exact ⟨(Option.some.inj hx).symm, h1, h5, fun hd => absurd hd h2⟩
  · rintro ⟨rfl, hb, hw, horth⟩
    rw [if_pos hb]
    by_cases hd : d.1.natAbs = 1 ∧ d.2.natAbs = 1
    · rw [if_pos hd, if_pos (not_and_or.mp (horth hd)), if_pos hw]
    · rw [if_neg hd, if_pos hw]

end AV

namespace AV

/-- Claim C1: for every pair of adjacent cells (the neighbor written as one
step from `c` in move direction `m`) and every current heading `d`, the
heading-aware step cost is exactly: cost 1 with path `[forward]` when the
move continues the current heading; cost 2 with path `[turn, forward]` for
a single 90-degree turn; cost 3 with path `[turn, turn, forward]` (both
turns the same rotation instruction, never a single reverse instruction:
the instruction set has none) for a 180-degree reversal; and the returned
new heading is the direction of the move. -/
theorem c1_heading_cost_table (c : Cell) (m d : Direction) :
    (getDistance c (cellInDir c m) d).2.2 = m ∧
    (m = d → (getDistance c (cellInDir c m) d).1 = 1 ∧
      (getDistance c (cellInDir c m) d).2.1 = [Move.f]) ∧
    (m = d.opposite → ∃ t, t ≠ Move.f ∧ (getDistance c (cellInDir c m) d).1 = 3 ∧
      (getDistance c (cellInDir c m) d).2.1 = [t, t, Move.f]) ∧
    (m ≠ d → m ≠ d.opposite → ∃ t, t ≠ Move.f ∧
      (getDistance c (cellInDir c m) d).1 = 2 ∧
      (getDistance c (cellInDir c m) d).2.1 = [t, Move.f]) := by
  obtain ⟨x, y⟩ := c
  have hx₁ : x - 1 < x := by omega
  have hx₂ : x < x + 1 := by omega
  have hx₃ : ¬ (x + 1 < x) := by omega
  have hx₄ : ¬ (x < x - 1) := by omega
  have hy₁ : y - 1 < y := by omega
  have hy₂ : y < y + 1 := by omega
  have hy₃ : ¬ (y + 1 < y) := by omega
  have hy₄ : ¬ (y < y - 1) := by omega
  cases m <;> cases d <;>
    simp [getDistance, cellInDir, Direction.opposite,
      hx₁, hx₂, hx₃, hx₄, hy₁, hy₂, hy₃, hy₄]

/-- Witness for C1: moving up from cell (2,1) to (1,1) while heading down
(a reversal) costs 3, with a same-signed double turn path ending in
forward, and new heading up — the values the repository's unit test
asserts for this input. -/
theorem c1_heading_cost_table_witness :
    (getDistance ((2 : ℤ), (1 : ℤ)) ((1 : ℤ), (1 : ℤ)) Direction.down).2.2 =
      Direction.up ∧
    ∃ t, t ≠ Move.f ∧
      (getDistance ((2 : ℤ), (1 : ℤ)) ((1 : ℤ), (1 : ℤ)) Direction.down).1 = 3 ∧
      (getDistance ((2 : ℤ), (1 : ℤ)) ((1 : ℤ), (1 : ℤ)) Direction.down).2.1 =
        [t, t, Move.f] := by
  have hc : cellInDir ((2 : ℤ), (1 : ℤ)) Direction.up = ((1 : ℤ), (1 : ℤ)) := by
    simp [cellInDir]
  have h := c1_heading_cost_table ((2 : ℤ), (1 : ℤ)) Direction.up Direction.down
  rw [hc] at h
  exact ⟨h.1, h.2.2.1 rfl⟩

/-- Claim C2 (counterexample): the claim fails as stated.  On a 1 by 2
grid whose start cell is a wall, `initializeStartNode` assigns the wall
cell distance 0 unconditionally, so a wall cell holds a finite gCost
during (and after) the run. -/
theorem c2_wall_start_counterexample :
    ((runAstar gridWallStart (0, 0) (0, 1)).2.1.nodes (0, 0)).status =
      Status.wall ∧
    ((runAstar gridWallStart (0, 0) (0, 1)).2.1.nodes (0, 0)).distance = 0 := by
  decide

/-- Claim C2 (amended): provided the start cell is not a wall, no cell
whose status is wall ever appears in the visitation trace or holds a
finite gCost — at every intermediate state of the run and in the final
state. -/
theorem c2_wall_isolation_amended (g : Grid) (start target : Cell)
    (hs : g.status start ≠ Status.wall) :
    (∀ st ∈ (runAstar g start target).2.2, ∀ c,
      (st.nodes c).status = Status.wall →
        c ∉ st.animate ∧ (st.nodes c).distance = ⊤) ∧
    (∀ c, ((runAstar g start target).2.1.nodes c).status = Status.wall →
      c ∉ (runAstar g start target).2.1.animate ∧
      ((runAstar g start target).2.1.nodes c).distance = ⊤) := by
  have hwd : ∀ s, Inv g start target s → ∀ c,
      (s.nodes c).status = Status.wall →
        c ∉ s.animate ∧ (s.nodes c).distance = ⊤ := by
    intro s hInv c hw
    refine ⟨hInv.wall_not_anim c hw, hInv.wall_dist c hw ?_⟩
    rintro rfl
    exact hs ((hInv.wall_iff c).mp hw)
  by_cases hv : inBounds g.rows g.cols start ∧ inBounds g.rows g.cols target ∧
      start ≠ target
  · have LF := runAstar_facts g start target hv.1 hv.2.1 hv.2.2
    exact ⟨fun st hst => hwd st (LF.invHist st hst), hwd _ LF.invFinal⟩
  · have hinv : invalidInput g (some start) (some target) := by
      unfold invalidInput
      by_cases h1 : inBounds g.rows g.cols start
      · by_cases h2 : inBounds g.rows g.cols target
        · by_cases h3 : start = target
          · exact Or.inr (Or.inr h3)
          · exact absurd ⟨h1, h2, h3⟩ hv
        · exact Or.inr (Or.inl h2)
      · exact Or.inl h1
    have he : runAstar g start target =
        (Outcome.failed, initState g, [initState g]) :=
      astarRun_invalid g (some start) (some target) hinv
    rw [he]
    constructor
    · intro st hst c hw
      simp only [List.mem_singleton] at hst
      subst hst
      exact ⟨List.not_mem_nil c, rfl⟩
    · intro c hw
      exact ⟨List.not_mem_nil c, rfl⟩

/-- Witness for C2: on the middle-walled 1 by 3 grid with a non-wall
start, the wall cell (0,1) is absent from the final trace and keeps
distance Infinity. -/
theorem c2_wall_isolation_witness :
    (0, 1) ∉ (runAstar gridBlocked (0, 0) (0, 2)).2.1.animate ∧
    ((runAstar gridBlocked (0, 0) (0, 2)).2.1.nodes (0, 1)).distance = ⊤ :=
  (c2_wall_isolation_amended gridBlocked (0, 0) (0, 2) (by decide)).2
    (0, 1) (by decide)

/-- Claim C3: whenever the start or target id is null or absent from the
grid, or start equals target, `astar` returns `false` immediately: the
returned state is exactly the untouched initial dictionary (every gCost
still Infinity, every back pointer null, every status as authored) and
the visitation trace is empty. -/
theorem c3_invalid_input_failed (g : Grid) (s? t? : Option Cell)
    (h : invalidInput g s? t?) :
    astarRun g s? t? = (Outcome.failed, initState g, [initState g]) ∧
    (∀ c, (astarRun g s? t?).2.1.nodes c = (initState g).nodes c) ∧
    (astarRun g s? t?).2.1.animate = [] := by
  have he := astarRun_invalid g s? t? h
  rw [he]
  exact ⟨rfl, fun c => rfl, rfl⟩

/-- Witness for C3: calling with start equal to target fails with the
initial state unchanged. -/
theorem c3_invalid_input_witness :
    astarRun gridOpen2 (some (0, 0)) (some (0, 0)) =
      (Outcome.failed, initState gridOpen2, [initState gridOpen2]) :=
  (c3_invalid_input_failed gridOpen2 (some (0, 0)) (some (0, 0))
    (Or.inr (Or.inr rfl))).1

/-- Claim C4 (counterexample): the claim fails as stated.  On a 1 by 2
grid whose target is a wall (hence unreachable), the run does not return
Failed: once only wall cells remain unvisited, `findClosestNode` returns
`null` and the loop dereferences it — a crash, not `false`. -/
theorem c4_wall_target_crash :
    ¬ Reach gridWallTarget (0, 0) (0, 1) ∧
    (runAstar gridWallTarget (0, 0) (0, 1)).1 = Outcome.crash ∧
    (runAstar gridWallTarget (0, 0) (0, 1)).1 ≠ Outcome.failed :=
  ⟨noReach_gridWallTarget, by decide, by decide⟩

/-- Claim C4 (amended): for every grid whose target cell is not a wall,
if the target is unreachable from the start the weighted search
terminates with outcome Failed and the target's back pointer remains
unset. -/
theorem c4_unreachable_failed_amended (g : Grid) (start target : Cell)
    (hw : g.status target ≠ Status.wall) (hr : ¬ Reach g start target) :
    (runAstar g start target).1 = Outcome.failed ∧
    ((runAstar g start target).2.1.nodes target).previousNode = none := by
  by_cases hv : inBounds g.rows g.cols start ∧ inBounds g.rows g.cols target ∧
      start ≠ target
  · have LF := runAstar_facts g start target hv.1 hv.2.1 hv.2.2
    refine ⟨LF.unreachFailed (le_refl _) (mem_keysList.mpr hv.2.1) hw hr, ?_⟩
    cases hp : ((runAstar g start target).2.1.nodes target).previousNode with
    | none => rfl
    | some r =>
      exact absurd (LF.invFinal.reach_of_prev target (by rw [hp]; simp)) hr
  · have hinv : invalidInput g (some start) (some target) := by
      unfold invalidInput
      by_cases h1 : inBounds g.rows g.cols start
      · by_cases h2 : inBounds g.rows g.cols target
        · by_cases h3 : start = target
          · exact Or.inr (Or.inr h3)
          · exact absurd ⟨h1, h2, h3⟩ hv
        · exact Or.inr (Or.inl h2)
      · exact Or.inl h1
    have he := astarRun_invalid g (some start) (some target) hinv
    rw [show runAstar g start target = astarRun g (some start) (some target)
      from rfl, he]
    exact ⟨rfl, rfl⟩

/-- Witness for C4: on the middle-walled 1 by 3 grid the far end is
unreachable, the run fails and the target keeps a null back pointer. -/
theorem c4_unreachable_failed_witness :
    (runAstar gridBlocked (0, 0) (0, 2)).1 = Outcome.failed ∧
    ((runAstar gridBlocked (0, 0) (0, 2)).2.1.nodes (0, 2)).previousNode =
      none :=
  c4_unreachable_failed_amended gridBlocked (0, 0) (0, 2) (by decide)
    noReach_gridBlocked

/-- Claim C5: a neighbor's record is rewritten by `updateSingleNeighbor`
exactly when the candidate cost `current.gCost + neighbor.weight +
stepCost` (`relaxCand`) is strictly below the neighbor's current gCost —
on improvement the gCost becomes the candidate (strictly smaller) and the
back pointer is set; otherwise gCost, fCost, back pointer, path and
heading are all left unchanged.  Consequently, along every run, each
cell's gCost and fCost never increase from one state to the next. -/
theorem c5_relaxation_iff_monotone :
    (∀ (nodes : Cell → NodeRec) (cur nb target : Cell),
      (relaxCand nodes cur nb < (nodes nb).distance →
        (updateSingleNeighbor nodes cur nb target nb).distance =
          relaxCand nodes cur nb ∧
        (updateSingleNeighbor nodes cur nb target nb).distance <
          (nodes nb).distance ∧
        (updateSingleNeighbor nodes cur nb target nb).previousNode = some cur) ∧
      (¬ relaxCand nodes cur nb < (nodes nb).distance →
        (updateSingleNeighbor nodes cur nb target nb).distance =
          (nodes nb).distance ∧
        (updateSingleNeighbor nodes cur nb target nb).totalDistance =
          (nodes nb).totalDistance ∧
        (updateSingleNeighbor nodes cur nb target nb).previousNode =
          (nodes nb).previousNode ∧
        (updateSingleNeighbor nodes cur nb target nb).path = (nodes nb).path ∧
        (updateSingleNeighbor nodes cur nb target nb).direction =
          (nodes nb).direction)) ∧
    (∀ (g : Grid) (start target : Cell),
      List.Chain' stepLE (runAstar g start target).2.2) := by
  constructor
  · intro nodes cur nb target
    have hnb : updateSingleNeighbor nodes cur nb target nb =
        applyRelax (cacheHeuristic (nodes nb) nb target) (relaxCand nodes cur nb)
          cur (calculateNodeDistance cur nb (nodes cur).direction).2.1
          (calculateNodeDistance cur nb (nodes cur).direction).2.2 := by
      rw [updateSingleNeighbor_apply, if_pos rfl]
    have hcd : (cacheHeuristic (nodes nb) nb target).distance =
        (nodes nb).distance := by
      unfold cacheHeuristic
      split <;> rfl
    have hct : (cacheHeuristic (nodes nb) nb target).totalDistance =
        (nodes nb).totalDistance := by
      unfold cacheHeuristic
      split <;> rfl
    have hcp : (cacheHeuristic (nodes nb) nb target).previousNode =
        (nodes nb).previousNode := by
      unfold cacheHeuristic
      split <;> rfl
    have hcpa : (cacheHeuristic (nodes nb) nb target).path = (nodes nb).path := by
      unfold cacheHeuristic
      split <;> rfl
    have hcdi : (cacheHeuristic (nodes nb) nb target).direction =
        (nodes nb).direction := by
      unfold cacheHeuristic
      split <;> rfl
    constructor
    · intro hlt
      rcases applyRelax_cases (cacheHeuristic (nodes nb) nb target)
          (relaxCand nodes cur nb) cur
          (calculateNodeDistance cur nb (nodes cur).direction).2.1
          (calculateNodeDistance cur nb (nodes cur).direction).2.2 with
        ⟨hC, hr⟩ | ⟨hC, hr⟩
      · refine ⟨by rw [hnb, hr], ?_, by rw [hnb, hr]⟩
        rw [hnb, hr]
        exact hlt
      · rw [hcd] at hC
        exact absurd hlt hC
    · intro hnlt
      rcases applyRelax_cases (cacheHeuristic (nodes nb) nb target)
          (relaxCand nodes cur nb) cur
          (calculateNodeDistance cur nb (nodes cur).direction).2.1
          (calculateNodeDistance cur nb (nodes cur).direction).2.2 with
        ⟨hC, hr⟩ | ⟨hC, hr⟩
      · rw [hcd] at hC
        exact absurd hC hnlt
      · rw [hnb, hr]
        exact ⟨hcd, hct, hcp, hcpa, hcdi⟩
  · intro g start target
    by_cases hv : inBounds g.rows g.cols start ∧ inBounds g.rows g.cols target ∧
        start ≠ target
    · exact (runAstar_facts g start target hv.1 hv.2.1 hv.2.2).monoHist
    · have hinv : invalidInput g (some start) (some target) := by
        unfold invalidInput
        by_cases h1 : inBounds g.rows g.cols start
        · by_cases h2 : inBounds g.rows g.cols target
          · by_cases h3 : start = target
            · exact Or.inr (Or.inr h3)
            · exact absurd ⟨h1, h2, h3⟩ hv
          · exact Or.inr (Or.inl h2)
        · exact Or.inl h1
      rw [show runAstar g start target = astarRun g (some start) (some target)
        from rfl, astarRun_invalid g (some start) (some target) hinv]
      exact List.chain'_singleton _

/-- Witness for C5: relaxing the fresh neighbor (0,1) from the
initialized start (0,0) fires (candidate 1 below Infinity) and writes the
candidate distance and back pointer. -/
theorem c5_relaxation_witness :
    (updateSingleNeighbor nodesEx (0, 0) (0, 1) (1, 1) (0, 1)).distance =
      relaxCand nodesEx (0, 0) (0, 1) ∧
    (updateSingleNeighbor nodesEx (0, 0) (0, 1) (1, 1) (0, 1)).distance <
      (nodesEx (0, 1)).distance ∧
    (updateSingleNeighbor nodesEx (0, 0) (0, 1) (1, 1) (0, 1)).previousNode =
      some (0, 0) :=
  (c5_relaxation_iff_monotone.1 nodesEx (0, 0) (0, 1) (1, 1)).1 (by decide)

/-- Claim C6 (counterexample): the claim fails as stated for the
Map-based selector `AStar.findNodeWithLowestDistance` of
`modern-astar.js`: on two entries tied at fCost 5 where the second cell
has the strictly lower cached heuristic (1 versus 5), the selector
returns the first cell — it consults no heuristic tie-break at all. -/
theorem c6_maplowest_tiebreak_counterexample :
    findNodeWithLowestDistance mapC6 = some (0, 0) ∧
    lookupD mapC6 (0, 0) = (nodesC6 (0, 0)).totalDistance ∧
    lookupD mapC6 (0, 1) = (nodesC6 (0, 1)).totalDistance ∧
    (nodesC6 (0, 0)).totalDistance = (nodesC6 (0, 1)).totalDistance ∧
    hNum (nodesC6 (0, 1)).heuristicDistance <
      hNum (nodesC6 (0, 0)).heuristicDistance ∧
    ((0, 0) : Cell) ≠ (0, 1) := by
  decide

/-- Claim C6 (amended): the array-scan selector `findClosestNode` does
return a non-wall unvisited cell of minimal fCost, breaking fCost ties by
the lower cached heuristic; the Map-based
`AStar.findNodeWithLowestDistance` guarantees only a key of minimal
stored totalDistance (ties resolved by insertion order, the heuristic
never consulted). -/
theorem c6_extraction_minimal_amended :
    (∀ (nodes : Cell → NodeRec) (us : List Cell) (c : Cell) (us' : List Cell),
      findClosestNode nodes us = (some c, us') →
      c ∈ us ∧ (nodes c).status ≠ Status.wall ∧
      ∀ x ∈ us, (nodes x).status ≠ Status.wall →
        (nodes c).totalDistance ≤ (nodes x).totalDistance ∧
        ((nodes c).totalDistance = (nodes x).totalDistance →
          hNum (nodes c).heuristicDistance ≤ hNum (nodes x).heuristicDistance)) ∧
    (∀ (m : List (Cell × ℕ∞)) (p₀ : Cell × ℕ∞) (t : List (Cell × ℕ∞)),
      m = p₀ :: t → (m.map Prod.fst).Nodup →
      ∃ r, findNodeWithLowestDistance m = some r ∧ r ∈ m.map Prod.fst ∧
        ∀ p ∈ m, lookupD m r ≤ p.2) := by
  constructor
  · intro nodes us c us' h
    obtain ⟨i, -, -, -, hcw, hcmem, hmin⟩ := findClosestNode_some_facts h
    exact ⟨hcmem, hcw, fun x hx hxw => hmin x hx hxw⟩
  · intro m p₀ t hm hnd
    subst hm
    obtain ⟨hmem, -, hall⟩ := lowestFold_facts (p₀ :: t) hnd (p₀ :: t) p₀.1
      (fun p hp => hp) (List.mem_map_of_mem Prod.fst (List.mem_cons_self p₀ t))
    exact ⟨_, rfl, hmem, hall⟩

/-- Witness for C6: on the two tied entries of `nodesC6`, the array-scan
selector extracts cell (0,1), the one with the lower cached heuristic. -/
theorem c6_extraction_witness :
    (0, 1) ∈ ([(0, 0), (0, 1)] : List Cell) ∧
    (nodesC6 (0, 1)).status ≠ Status.wall ∧
    ∀ x ∈ ([(0, 0), (0, 1)] : List Cell),
      (nodesC6 x).status ≠ Status.wall →
      (nodesC6 (0, 1)).totalDistance ≤ (nodesC6 x).totalDistance ∧
      ((nodesC6 (0, 1)).totalDistance = (nodesC6 x).totalDistance →
        hNum (nodesC6 (0, 1)).heuristicDistance ≤
          hNum (nodesC6 x).heuristicDistance) :=
  c6_extraction_minimal_amended.1 nodesC6 [(0, 0), (0, 1)] (0, 1) [(0, 0)]
    (by decide)

/-- Claim C7 (counterexample): the claim fails as stated.  On the
weighted 2 by 3 grid the run succeeds but the target's heuristic is
computed three times: its value 0 is falsy, so the cache check
`if (!neighborNode.heuristicDistance)` treats it as absent on every later
relaxation. -/
theorem c7_heuristic_recomputed_counterexample :
    (runAstar gridWeighted (0, 0) (1, 1)).1 = Outcome.success ∧
    ((runAstar gridWeighted (0, 0) (1, 1)).2.1.nodes (1, 1)).hCount = 3 ∧
    1 < ((runAstar gridWeighted (0, 0) (1, 1)).2.1.nodes (1, 1)).hCount := by
  decide

/-- Claim C7 (amended): at every state of every run, every cached
heuristic value equals the Manhattan distance from its cell to the
target; and for every cell other than the target the heuristic is
computed at most once (the target's zero heuristic may be recomputed,
always to the same value 0). -/
theorem c7_heuristic_cached_amended (g : Grid) (start target : Cell) :
    (∀ st ∈ (runAstar g start target).2.2, ∀ c,
      (∀ k, (st.nodes c).heuristicDistance = some k →
        k = manhattanDistance c target) ∧
      (c ≠ target → (st.nodes c).hCount ≤ 1)) ∧
    (∀ c, (∀ k, ((runAstar g start target).2.1.nodes c).heuristicDistance =
        some k → k = manhattanDistance c target) ∧
      (c ≠ target → ((runAstar g start target).2.1.nodes c).hCount ≤ 1)) := by
  have hfacts : ∀ s, Inv g start target s → ∀ c,
      (∀ k, (s.nodes c).heuristicDistance = some k →
        k = manhattanDistance c target) ∧
      (c ≠ target → (s.nodes c).hCount ≤ 1) := by
    intro s hInv c
    exact ⟨fun k hk => hInv.heur_eq c k hk, fun hct => hInv.hcount_le c hct⟩
  by_cases hv : inBounds g.rows g.cols start ∧ inBounds g.rows g.cols target ∧
      start ≠ target
  · have LF := runAstar_facts g start target hv.1 hv.2.1 hv.2.2
    exact ⟨fun st hst => hfacts st (LF.invHist st hst), hfacts _ LF.invFinal⟩
  · have hinv : invalidInput g (some start) (some target) := by
      unfold invalidInput
      by_cases h1 : inBounds g.rows g.cols start
      · by_cases h2 : inBounds g.rows g.cols target
        · by_cases h3 : start = target
          · exact Or.inr (Or.inr h3)
          · exact absurd ⟨h1, h2, h3⟩ hv
        · exact Or.inr (Or.inl h2)
      · exact Or.inl h1
    rw [show runAstar g start target = astarRun g (some start) (some target)
      from rfl, astarRun_invalid g (some start) (some target) hinv]
    constructor
    · intro st hst c
      simp only [List.mem_singleton] at hst
      subst hst
      exact ⟨(fun k hk => by cases hk), fun _ => Nat.zero_le 1⟩
    · intro c
      exact ⟨(fun k hk => by cases hk), fun _ => Nat.zero_le 1⟩

/-- Witness for C7: after the successful open 2 by 2 run, cell (0,1)
carries the cached heuristic 1 — the Manhattan distance to the target —
and its computation count is at most one. -/
theorem c7_heuristic_witness :
    (1 : ℕ) = manhattanDistance (0, 1) (1, 1) ∧
    ((runAstar gridOpen2 (0, 0) (1, 1)).2.1.nodes (0, 1)).hCount ≤ 1 :=
  ⟨((c7_heuristic_cached_amended gridOpen2 (0, 0) (1, 1)).2 (0, 1)).1 1
      (by decide),
    ((c7_heuristic_cached_amended gridOpen2 (0, 0) (1, 1)).2 (0, 1)).2
      (by decide)⟩

/-- The back-pointer walk on a two-cell cycle never terminates, whatever
the fuel. -/
theorem getShortestPathAux_cycle (prev : Cell → Option Cell) :
    ∀ (n : ℕ) (a b : Cell) (acc : List Cell), prev a = some b →
      prev b = some a → getShortestPathAux prev n (some a) acc = none
  | 0, a, b, acc, ha, hb => rfl
  | n + 1, a, b, acc, ha, hb => by
    rw [show getShortestPathAux prev (n + 1) (some a) acc =
      getShortestPathAux prev n (prev a) (a :: acc) from rfl, ha]
    exact getShortestPathAux_cycle prev n b a (a :: acc) hb ha

/-- Claim C8 (counterexample): the claim fails as stated.  With a null
back pointer at the target and a distinct start cell, the walk returns
the plain partial path `[target]` — there is no "unreachable" failure
signal in the code, which simply collects cells until the first null
link. -/
theorem c8_partial_path_counterexample :
    getShortestPath prevNoneEx (1, 1) 4 = some [(1, 1)] ∧
    ((1, 1) : Cell) ≠ (0, 0) := by
  decide

/-- Claim C8 (amended): `getShortestPath` walks `previousNode` links
accumulating cells and gives no explicit failure signal of any kind: a
chain that stops before reaching the start is returned as a partial path
(a lone null-linked target yields `[target]`), and a cyclic chain makes
the loop run forever (no fuel suffices in the fuel-indexed model). -/
theorem c8_reconstruct_no_signal_amended :
    (∀ (prev : Cell → Option Cell) (c : Cell) (n : ℕ), prev c = none →
      getShortestPath prev c (n + 1) = some [c]) ∧
    (∀ (prev : Cell → Option Cell) (a b : Cell), prev a = some b →
      prev b = some a → ∀ (n : ℕ) (acc : List Cell),
        getShortestPathAux prev n (some a) acc = none) := by
  constructor
  · intro prev c n h
    show getShortestPathAux prev (n + 1) (some c) [] = some [c]
    rw [show getShortestPathAux prev (n + 1) (some c) [] =
      getShortestPathAux prev n (prev c) [c] from rfl, h]
    cases n <;> rfl
  · intro prev a b ha hb n acc
    exact getShortestPathAux_cycle prev n a b acc ha hb

/-- Witness for C8: a null-linked cell walks to the singleton partial
path, and the concrete two-cell cycle never terminates within fuel 5. -/
theorem c8_reconstruct_witness :
    getShortestPath prevNoneEx (0, 5) 7 = some [(0, 5)] ∧
    getShortestPathAux prevCycEx 5 (some (0, 0)) [] = none :=
  ⟨c8_reconstruct_no_signal_amended.1 prevNoneEx (0, 5) 6 rfl,
    c8_reconstruct_no_signal_amended.2 prevCycEx (0, 0) (0, 1) (by decide)
      (by decide) 5 []⟩

/-- Claim C9: in diagonal mode, for every direction offset of the
resolver's list, the candidate one step away is a neighbor exactly when
it is in bounds, not a wall, and — when the offset is diagonal — not
corner-cutting between two walls (it is rejected exactly when both
orthogonally adjacent cells are walls); for cardinal offsets the
candidate is included exactly when in bounds and not a wall. -/
theorem c9_diagonal_neighbors (nodes : Cell → NodeRec) (rows cols : ℕ)
    (c : Cell) (d : ℤ × ℤ) (hd : d ∈ dirsWithDiag) :
    (c.1 + d.1, c.2 + d.2) ∈ getNeighborsDiag nodes rows cols c ↔
      inBounds rows cols (c.1 + d.1, c.2 + d.2) ∧
      (nodes (c.1 + d.1, c.2 + d.2)).status ≠ Status.wall ∧
      (d.1.natAbs = 1 ∧ d.2.natAbs = 1 →
        ¬((nodes (c.1, c.2 + d.2)).status = Status.wall ∧
          (nodes (c.1 + d.1, c.2)).status = Status.wall)) := by
  unfold getNeighborsDiag
  rw [List.mem_filterMap]
  constructor
  · rintro ⟨d', hd', hc⟩
    obtain ⟨heq, hb, hw, ho⟩ := diagCand_eq_some.mp hc
    have hdd : d' = d := by
      obtain ⟨e1, e2⟩ := Prod.mk.injEq _ _ _ _ ▸ heq
      obtain ⟨dx, dy⟩ := d
      obtain ⟨dx', dy'⟩ := d'
      simp only [Prod.mk.injEq]
      constructor <;> omega
    subst hdd
    exact ⟨hb, hw, ho⟩
  · rintro ⟨hb, hw, ho⟩
    exact ⟨d, hd, diagCand_eq_some.mpr ⟨rfl, hb, hw, ho⟩⟩

/-- Witness for C9: the down-right diagonal from (0,0) on a 2 by 2 board
of `nodesC6` (no walls) satisfies the characterization. -/
theorem c9_diagonal_neighbors_witness :
    ((0 : ℤ) + 1, (0 : ℤ) + 1) ∈ getNeighborsDiag nodesC6 2 2 (0, 0) ↔
      inBounds 2 2 ((0 : ℤ) + 1, (0 : ℤ) + 1) ∧
      (nodesC6 ((0 : ℤ) + 1, (0 : ℤ) + 1)).status ≠ Status.wall ∧
      ((1 : ℤ).natAbs = 1 ∧ (1 : ℤ).natAbs = 1 →
        ¬((nodesC6 ((0 : ℤ), (0 : ℤ) + 1)).status = Status.wall ∧
          (nodesC6 ((0 : ℤ) + 1, (0 : ℤ))).status = Status.wall)) :=
  c9_diagonal_neighbors nodesC6 2 2 (0, 0) (1, 1) (by decide)

/-- Claim C10: every run that returns Succeeded has a non-empty
visitation trace whose first element is the start cell and whose last
element is the target cell, and at every intermediate state each traced
cell's status (the start and target included) has been overwritten to
"visited". -/
theorem c10_trace_start_target_visited (g : Grid) (start target : Cell)
    (hs : (runAstar g start target).1 = Outcome.success) :
    (runAstar g start target).2.1.animate ≠ [] ∧
    (runAstar g start target).2.1.animate.head? = some start ∧
    (runAstar g start target).2.1.animate.getLast? = some target ∧
    ∀ st ∈ (runAstar g start target).2.2, ∀ c ∈ st.animate,
      (st.nodes c).status = Status.visited := by
  by_cases hv : inBounds g.rows g.cols start ∧ inBounds g.rows g.cols target ∧
      start ≠ target
  · have LF := runAstar_facts g start target hv.1 hv.2.1 hv.2.2
    obtain ⟨hne, hlast⟩ := LF.successAnim hs
    exact ⟨hne, LF.invFinal.anim_head hne, hlast,
      fun st hst c hc => (LF.invHist st hst).anim_visited c hc⟩
  · exfalso
    have hinv : invalidInput g (some start) (some target) := by
      unfold invalidInput
      by_cases h1 : inBounds g.rows g.cols start
      · by_cases h2 : inBounds g.rows g.cols target
        · by_cases h3 : start = target
          · exact Or.inr (Or.inr h3)
          · exact absurd ⟨h1, h2, h3⟩ hv
        · exact Or.inr (Or.inl h2)
      · exact Or.inl h1
    rw [show runAstar g start target = astarRun g (some start) (some target)
      from rfl, astarRun_invalid g (some start) (some target) hinv] at hs
    cases hs

/-- Witness for C10: the successful open 2 by 2 run's trace starts at
(0,0) and ends at the target (1,1). -/
theorem c10_trace_witness :
    (runAstar gridOpen2 (0, 0) (1, 1)).2.1.animate.head? = some (0, 0) ∧
    (runAstar gridOpen2 (0, 0) (1, 1)).2.1.animate.getLast? = some (1, 1) :=
  ⟨(c10_trace_start_target_visited gridOpen2 (0, 0) (1, 1) (by decide)).2.1,
    (c10_trace_start_target_visited gridOpen2 (0, 0) (1, 1) (by decide)).2.2.1⟩

end AV
